import Mathlib

/-!
Verification development for the wiki-info document pipeline
(`src/wiki_info.rs`): markup extraction, two-stage text normalization,
shared-vocabulary term-frequency vectors, cosine similarity and argmax
selection.  Rust strings are modelled as Lean `String`s (processed through
their `List Char` data), `f64` values as exact rationals/reals, and the one
IEEE-754 artefact that matters (division `0.0 / 0.0` producing NaN inside
`cosine_sim`) by an explicit `nan` constructor.
-/

/-- Whitespace run collapsing: models `Regex::new(r"\s+").replace_all(input, " ")`
from `clean_meta_content` (wiki_info.rs:319-320).  Every maximal run of
whitespace characters is replaced by a single space.  (Rust `\s` is Unicode
White_Space; it is modelled by `Char.isWhitespace`, which covers the ASCII
whitespace actually exercised here.) -/
def collapseWS : List Char → List Char
  | [] => []
  | c :: rest =>
    if c.isWhitespace then
      ' ' :: collapseWS (rest.dropWhile Char.isWhitespace)
    else
      c :: collapseWS rest
termination_by l => l.length
decreasing_by
  · simp only [List.length_cons]
    exact Nat.lt_succ_of_le (List.dropWhile_sublist _).length_le
  · simp

/-- Scanning step of the lazy sub-patterns `.*?\{` and `.*?\}` in the CSS
regex `\.mw-.*?\{.*?\}` (wiki_info.rs:322): consume characters up to the
first occurrence of `delim`; fail if a newline (which `.` cannot match) or
the end of the string intervenes.  Returns the remainder after `delim`. -/
def scanToChar (delim : Char) : List Char → Option (List Char)
  | [] => none
  | c :: rest =>
    if c = delim then some rest
    else if c = '\n' then none
    else scanToChar delim rest

/-- Attempts to match the regex `\.mw-.*?\{.*?\}` at the head of `cs`,
returning the remainder after the match.  Lazy matching means: the first
`\x7b` reachable without crossing a newline, then the first `\x7d` likewise.
(Backtracking the engine would do on failure of the second lazy scan cannot
succeed either — any later opening brace leads to the same failing scan — so
this no-backtracking model is exact.) -/
def cssMatchAt (cs : List Char) : Option (List Char) :=
  match cs with
  | '.' :: 'm' :: 'w' :: '-' :: rest => (scanToChar '\x7b' rest).bind (scanToChar '\x7d')
  | _ => none

/-- Replacement of every (leftmost, non-overlapping) match of the CSS regex
by the empty string: models `re_css.replace_all(&cleaned_text, "")`
(wiki_info.rs:322-323). -/
def removeCss : List Char → List Char
  | [] => []
  | c :: rest =>
    match h : cssMatchAt (c :: rest) with
    | some remainder => removeCss remainder
    | none => c :: removeCss rest
termination_by l => l.length
decreasing_by
  · have hscan : ∀ (d : Char) (l r : List Char), scanToChar d l = some r →
        r.length < l.length := by
      intro d l
      induction l with
      | nil => intro r hr; simp [scanToChar] at hr
      | cons c2 rest2 ih =>
        intro r hr
        simp only [scanToChar] at hr
        by_cases hc1 : c2 = d
        · simp only [if_pos hc1, Option.some.injEq] at hr
          subst hr
          simp
        · by_cases hc2 : c2 = '\n'
          · rw [if_neg hc1, if_pos hc2] at hr
            exact absurd hr (by simp)
          · simp only [if_neg hc1, if_neg hc2] at hr
            exact Nat.lt_succ_of_lt (ih r hr)
    have hcm : ∀ (l r : List Char), cssMatchAt l = some r → r.length < l.length := by
      intro l r hr
      unfold cssMatchAt at hr
      split at hr
      · next rest3 =>
        cases hm : scanToChar '\x7b' rest3 with
        | none => rw [hm] at hr; simp at hr
        | some m =>
          rw [hm] at hr
          have e1 := hscan _ _ _ hm
          have e2 := hscan _ _ _ (show scanToChar '\x7d' m = some r from hr)
          simp only [List.length_cons]
          omega
      · simp at hr
    exact hcm _ _ h
  · simp only [List.length_cons]
    omega

/-- Left-to-right, non-overlapping removal of the two-character literal
`a`,`b`: models Rust `str::replace("()", "")` and `str::replace("[]", "")`
(wiki_info.rs:325). -/
def removePair (a b : Char) : List Char → List Char
  | x :: y :: rest =>
    if x = a ∧ y = b then removePair a b rest
    else x :: removePair a b (y :: rest)
  | l => l

/-- There is a CSS-fragment match starting at some position of `l`. -/
def hasCss : List Char → Bool
  | [] => false
  | c :: rest => (cssMatchAt (c :: rest)).isSome || hasCss rest

/-- There is an occurrence of the two-character literal `a`,`b` in `l`. -/
def hasPair (a b : Char) : List Char → Bool
  | x :: y :: rest => (x = a && y = b) || hasPair a b (y :: rest)
  | _ => false

/-- No two consecutive whitespace characters: the claims' "no run of more
than one whitespace character". -/
def noTwoWS (l : List Char) : Prop :=
  List.Chain' (fun a b => ¬(a.isWhitespace = true ∧ b.isWhitespace = true)) l

/-- Boolean check for a run of two consecutive whitespace characters. -/
def hasWSRun : List Char → Bool
  | a :: b :: rest => (a.isWhitespace && b.isWhitespace) || hasWSRun (b :: rest)
  | _ => false


/-- Removal of the leading and trailing whitespace runs: models
`Regex::new(r"^\s+|\s+$").replace_all(..., "")` (wiki_info.rs:327-328).
`^\s+` matches exactly the leading whitespace run and `\s+$` the trailing
one, so `replace_all` deletes both. -/
def trimWS (l : List Char) : List Char :=
  List.rdropWhile Char.isWhitespace (List.dropWhile Char.isWhitespace l)

/-- Embeds `clean_meta_content` (wiki_info.rs:317-332): collapse whitespace
runs to single spaces, strip `.mw-…\x7b…\x7d` style fragments, delete literal
`()` and `[]`, then trim. -/
def clean_meta_content (input : String) : String :=
  let cleaned_text := collapseWS input.data
  let cleaned_text_no_css := removeCss cleaned_text
  let clean_text_no_symbols := removePair '[' ']' (removePair '(' ')' cleaned_text_no_css)
  String.mk (trimWS clean_text_no_symbols)

/-- Embeds the Rust struct `HyperLink` (wiki_info.rs:242-245): a directed
edge out of a wiki page, with its visible anchor text (`title`) and absolute
target URL (`outlink`). -/
structure HyperLink where
  title : String
  outlink : String
deriving DecidableEq

/-- Embeds the Rust struct `Page` (wiki_info.rs:233-237). -/
structure Page where
  title : String
  links : List HyperLink
  content : String
deriving DecidableEq

/-- Abstract parsed-markup tree over which `process_content_recursive`
walks: a node is either a text node or an element with a tag name, an
attribute list and children.  (Other scraper node kinds — comments,
doctypes — are skipped by the traversal and are not modelled.) -/
inductive Node where
  | text (s : String)
  | elem (name : String) (attrs : List (String × String)) (children : List Node)

/-- First value of the attribute called `key`, as `scraper`'s
`elem.value().attr(...)` returns it. -/
def attrOf (attrs : List (String × String)) (key : String) : Option String :=
  (attrs.find? (fun kv => kv.1 == key)).map Prod.snd

mutual

/-- Concatenation of every text node of the subtree in document order:
models `elem.text().collect::<String>()` (wiki_info.rs:265). -/
def nodeText : Node → String
  | .text s => s
  | .elem _ _ children => nodeTextList children

/-- Text concatenation over a list of sibling nodes, document order. -/
def nodeTextList : List Node → String
  | [] => ""
  | n :: rest => nodeText n ++ nodeTextList rest
end

/-- Children of a node (an element's child list; a text node has none), as
`element.children()` iterates them. -/
def childrenOf : Node → List Node
  | .text _ => []
  | .elem _ _ children => children

/-- Embeds the child loop of `process_content_recursive`
(wiki_info.rs:247-276), with the two `&mut` accumulators threaded through
as arguments and returned.  For each node in document order:
text is appended to `raw_content`; an `a` element with an `href` beginning
with `/wiki/` contributes one `HyperLink` (its `title` is all text inside
the anchor, its `outlink` is `https://en.wikipedia.org` plus the raw
`href`); an `a` element whose `href` is absent or lacks the `/wiki/` run at
its start contributes nothing (and, like any anchor, is not descended
into); any other element is recursed into. -/
def pcrChildren : List Node → String → List HyperLink → String × List HyperLink
  | [], raw_content, links => (raw_content, links)
  | Node.text s :: rest, raw_content, links => pcrChildren rest (raw_content ++ s) links
  | Node.elem name attrs children :: rest, raw_content, links =>
    if name = "a" then
      match attrOf attrs "href" with
      | some href =>
        if "/wiki/".data.isPrefixOf href.data then
          pcrChildren rest raw_content
            (links ++ [{ title := nodeText (Node.elem name attrs children),
                         outlink := "https://en.wikipedia.org" ++ href }])
        else
          pcrChildren rest raw_content links
      | none => pcrChildren rest raw_content links
    else
      let p := pcrChildren children raw_content links
      pcrChildren rest p.1 p.2
termination_by l => sizeOf l

/-- Embeds `process_content_recursive` (wiki_info.rs:247-276) itself, which
iterates over the children of its `element` argument. -/
def process_content_recursive (element : Node) (raw_content : String)
    (links : List HyperLink) : String × List HyperLink :=
  pcrChildren (childrenOf element) raw_content links

/-- Embeds `process_content` (wiki_info.rs:288-304): run the recursive
traversal once from the root, clean the accumulated raw text once with
`clean_meta_content`, and trim the supplied title. -/
def process_content (element : Node) (page_title : String) : Page :=
  let p := process_content_recursive element "" []
  { title := String.mk (trimWS page_title.data),
    content := clean_meta_content p.1,
    links := p.2 }

/-- The anchor (`a`) elements the traversal of `pcrChildren` encounters, in
document order.  The traversal does not descend into anchors, so anchors
nested inside another anchor are not listed. -/
def anchorsOf : List Node → List Node
  | [] => []
  | Node.text _ :: rest => anchorsOf rest
  | Node.elem name attrs children :: rest =>
    if name = "a" then Node.elem name attrs children :: anchorsOf rest
    else anchorsOf children ++ anchorsOf rest
termination_by l => sizeOf l

/-- The edge an encountered anchor produces, if any: present exactly when
the anchor's `href` attribute exists and starts with `/wiki/`. -/
def edgeOf : Node → Option HyperLink
  | Node.text _ => none
  | Node.elem name attrs children =>
    if name = "a" then
      match attrOf attrs "href" with
      | some href =>
        if "/wiki/".data.isPrefixOf href.data then
          some { title := nodeText (Node.elem name attrs children),
                 outlink := "https://en.wikipedia.org" ++ href }
        else none
      | none => none
    else none

/-- Erases, recursively (but without descending into anchors, mirroring the
traversal), every anchor element that the traversal would skip: an `a`
element whose `href` attribute is absent or does not start with `/wiki/`. -/
def dropSkipped : List Node → List Node
  | [] => []
  | Node.text s :: rest => Node.text s :: dropSkipped rest
  | Node.elem name attrs children :: rest =>
    if name = "a" then
      match attrOf attrs "href" with
      | some href =>
        if "/wiki/".data.isPrefixOf href.data then
          Node.elem name attrs children :: dropSkipped rest
        else dropSkipped rest
      | none => dropSkipped rest
    else Node.elem name attrs (dropSkipped children) :: dropSkipped rest
termination_by l => sizeOf l

/-- Tokenizer state machine for Rust `str::split_whitespace`: maximal
non-whitespace runs, in order, with no empty tokens.  `acc` holds the
(reversed) characters of the token currently being read. -/
def splitWSAux : List Char → List Char → List String
  | [], acc => if acc.isEmpty then [] else [String.mk acc.reverse]
  | c :: rest, acc =>
    if c.isWhitespace then
      if acc.isEmpty then splitWSAux rest []
      else String.mk acc.reverse :: splitWSAux rest []
    else splitWSAux rest (c :: acc)

/-- Models `content.split_whitespace()` (wiki_info.rs:350, 386, 448, 480). -/
def splitWS (s : String) : List String := splitWSAux s.data []

/-- Models Rust `str::trim` (wiki_info.rs:351): remove leading and trailing
whitespace. -/
def strTrim (s : String) : String := String.mk (trimWS s.data)

/-- Models Rust `str::is_ascii` (wiki_info.rs:352): every character is in
the ASCII range. -/
def strIsAscii (s : String) : Bool := s.data.all (fun c => c.toNat < 128)

/-- Models `word.chars().all(|c| c.is_alphabetic())` (wiki_info.rs:353).
Rust `char::is_alphabetic` is Unicode-aware, but in `clean_document` this
filter runs strictly after the `is_ascii` filter, and on ASCII characters
it coincides with `Char.isAlpha` (the letters `A`–`Z`, `a`–`z`). -/
def strAllAlpha (s : String) : Bool := s.data.all Char.isAlpha

/-- Models Rust `str::to_ascii_lowercase` (wiki_info.rs:354, 357):
`Char.toLower` maps exactly `A`–`Z` to `a`–`z` and fixes everything else,
as `to_ascii_lowercase` does. -/
def strLowerAscii (s : String) : String := String.mk (s.data.map Char.toLower)

/-- Modelled from the spec: the Stop-word Set.  The source file
`src/stop_words.rs` (the `STOP_WORDS` constant) is not part of the sources
provided; the spec describes it as "a fixed set of common function words"
and names `"the"`, `"and"` and `"a"` as members, so exactly those are
modelled. -/
def STOP_WORDS : List String := ["the", "and", "a"]

/-- Embeds `clean_document` (wiki_info.rs:343-370): per whitespace token —
trim, keep only all-ASCII tokens, keep only all-alphabetic tokens,
lowercase, drop stop-words, lowercase again (the source maps
`to_ascii_lowercase` a second time after the stop-word filter), then push
each surviving token followed by a single space into the result.  Title and
links are carried over unchanged. -/
def clean_document (page : Page) : Page :=
  let words :=
    ((((((splitWS page.content).map strTrim).filter strIsAscii).filter
        strAllAlpha).map strLowerAscii).filter
          (fun word => !(STOP_WORDS.contains word))).map strLowerAscii
  let results := words.foldl (fun acc word => acc ++ word ++ " ") ""
  { title := page.title, links := page.links, content := results }

/-- The per-token pipeline exactly as claim C4 words it: trim; keep only if
every character is ASCII; keep only if every character is alphabetic;
lowercase; drop if present in the Stop-word Set.  (Stated from the spec, to
be compared with `clean_document` above, whose final body additionally
carries one trailing space per token.) -/
def cleanTokensSpec (body : String) : List String :=
  (((((splitWS body).map strTrim).filter strIsAscii).filter
      strAllAlpha).map strLowerAscii).filter
        (fun word => !(STOP_WORDS.contains word))

/-- Tokens rejoined with single spaces, as the spec's words describe the
cleaned body: one single space between consecutive tokens, nothing before
the first or after the last. -/
def joinSpaced : List String → String
  | [] => ""
  | [w] => w
  | w :: rest => w ++ " " ++ joinSpaced rest

/-- `clean_document` as claim C4 words it: same pipeline, tokens rejoined
with single spaces (no trailing space). -/
def clean_document_spec (page : Page) : Page :=
  { title := page.title, links := page.links,
    content := joinSpaced (cleanTokensSpec page.content) }

/-- One step of the shared-vocabulary construction, mirroring
`vocab_len = vocab.len(); vocab.entry(word.to_string()).or_insert(vocab_len);`
(wiki_info.rs:449-451 and 481-482): a word not yet present is appended with
index equal to the current vocabulary size.  The `HashMap<String, usize>` is
modelled as an association list of its (key, index) entries in insertion
order; only its mapping content matters. -/
def vocabInsert (vocab : List (String × Nat)) (w : String) : List (String × Nat) :=
  if vocab.any (fun kv => kv.1 == w) then vocab else vocab ++ [(w, vocab.length)]

/-- Lookup `vocab.get(word)` on the association-list model. -/
def vocabGet (vocab : List (String × Nat)) (w : String) : Option Nat :=
  (vocab.find? (fun kv => kv.1 == w)).map Prod.snd

/-- The whitespace tokens of a page's cleaned content, the unit iterated by
both vocabulary loops and by `page_to_vec`. -/
def pageTokens (page : Page) : List String := splitWS (clean_document page).content

/-- Embeds the shared-vocabulary loop that both `get_page_similarity`
(wiki_info.rs:441-453) and `get_most_similar_page` (wiki_info.rs:472-484)
run over their ordered page group: for each page in order, clean it and
fold `vocabInsert` over its whitespace tokens left to right. -/
def build_vocab (pages : List Page) : List (String × Nat) :=
  pages.foldl (fun vocab page => (pageTokens page).foldl vocabInsert vocab) []

/-- First occurrences of the words of a token stream that are not already
in `ks`, in stream order (specification companion of `build_vocab`). -/
def firstOccNew (ks : List String) : List String → List String
  | [] => []
  | t :: rest => if t ∈ ks then firstOccNew ks rest else t :: firstOccNew (ks ++ [t]) rest

/-- Pairs each list element with its position, starting at `i`. -/
def withIdxAux (i : Nat) : List String → List (String × Nat)
  | [] => []
  | w :: rest => (w, i) :: withIdxAux (i + 1) rest

/-- The concatenated cleaned token stream of an ordered page group, the
order in which both vocabulary-building loops encounter words. -/
def allTokens (pages : List Page) : List String := (pages.map pageTokens).flatten

/-- Embeds `page_to_vec` (wiki_info.rs:384-403): clean the page, split into
words, count occurrences, and scatter `count / total_words` into a zero
vector of the vocabulary's size at each word's vocabulary index; words not
in the vocabulary are ignored.  The distinct words are visited in first
occurrence order (the source iterates a `HashMap`'s entries in unspecified
order; each distinct word writes to its own index, so for the injective
vocabularies this program builds the visiting order does not affect the
result).  `f64` arithmetic is idealized as exact rational arithmetic.  When
the cleaned page has no words the loop body never runs and no division is
performed, leaving the zero vector. -/
def page_to_vec (page : Page) (vocab : List (String × Nat)) : List ℚ :=
  let words := pageTokens page
  let total_words : ℚ := (words.length : ℚ)
  let init : List ℚ := List.replicate vocab.length 0
  (firstOccNew [] words).foldl
    (fun vector word =>
      match vocabGet vocab word with
      | some index => vector.set index ((words.count word : ℚ) / total_words)
      | none => vector)
    init

/-- Squared Euclidean magnitude `vec.iter().map(|x| x.powi(2)).sum()`
(wiki_info.rs:425-426, before the square root). -/
def magSq (v : List ℚ) : ℚ := (v.map (fun x => x ^ 2)).sum

/-- An `f64` similarity result: either a real number or NaN.  (Infinities
cannot arise in `cosine_sim`: a zero denominator forces a zero numerator,
see `cosine_sim`.) -/
inductive SimF where
  | nan : SimF
  | val (x : ℝ) : SimF

/-- IEEE-754 strict `<` on similarity results: any comparison against NaN
is false. -/
def SimF.lt : SimF → SimF → Prop
  | SimF.val a, SimF.val b => a < b
  | _, _ => False

/-- Embeds `cosine_sim` (wiki_info.rs:417-428):
`dot_product / (magnitude1 * magnitude2)` with no zero-magnitude guard.
The magnitudes are square roots of the rational sums of squares.  The
division is IEEE-754 `f64` division: the denominator is zero exactly when
one of the sums of squares is zero, and then the vector in question is
identically zero, so the dot product is zero as well and `0.0 / 0.0`
produces NaN.  (For the term-frequency magnitudes this program feeds in, a
nonzero rational sum of squares never underflows to a zero `f64`.) -/
noncomputable def cosine_sim (vec1 vec2 : List ℚ) : SimF :=
  let dot_product : ℚ := (List.zipWith (fun a b => a * b) vec1 vec2).sum
  if magSq vec1 = 0 ∨ magSq vec2 = 0 then SimF.nan
  else SimF.val ((dot_product : ℝ) /
    (Real.sqrt (magSq vec1) * Real.sqrt (magSq vec2)))

/-- Embeds `get_page_similarity` (wiki_info.rs:440-459): shared vocabulary
over the two pages, then cosine similarity of their vectors. -/
noncomputable def get_page_similarity (page1 page2 : Page) : SimF :=
  let vocab := build_vocab [page1, page2]
  cosine_sim (page_to_vec page1 vocab) (page_to_vec page2 vocab)

/-- The candidate similarities `get_most_similar_page` computes, in
candidate order: shared vocabulary over the primary page followed by all
candidates, then one cosine similarity per candidate
(wiki_info.rs:477-493). -/
noncomputable def simsOf (primary_page : Page) (pages : List Page) : List SimF :=
  let vocab := build_vocab (primary_page :: pages)
  let primary_vec := page_to_vec primary_page vocab
  pages.map (fun page => cosine_sim primary_vec (page_to_vec page vocab))

open Classical in
/-- Embeds the selection loop of `get_most_similar_page`
(wiki_info.rs:488-499): running best value `best` (an ordinary `f64`, it
starts at `-1.0` and is only ever replaced by a non-NaN candidate), running
best index `bestIdx` (starts at `0`), current candidate index `i`.  The
IEEE comparison `cur_sim > best_similarity` is false whenever `cur_sim` is
NaN, so a NaN candidate never replaces the running best. -/
noncomputable def gmspGo : List SimF → ℝ → Nat → Nat → Nat
  | [], _, bestIdx, _ => bestIdx
  | SimF.nan :: rest, best, bestIdx, i => gmspGo rest best bestIdx (i + 1)
  | SimF.val x :: rest, best, bestIdx, i =>
    if best < x then gmspGo rest x i (i + 1)
    else gmspGo rest best bestIdx (i + 1)

/-- Embeds `get_most_similar_page` (wiki_info.rs:471-502): build the shared
vocabulary, vectorize everything, then run the strict-improvement argmax
loop over the candidate similarities with initial best similarity `-1.0`
and initial best index `0`. -/
noncomputable def get_most_similar_page (primary_page : Page) (pages : List Page) : Nat :=
  gmspGo (simsOf primary_page pages) (-1) 0 0

theorem scanToChar_length_lt {d : Char} : ∀ {l r : List Char},
    scanToChar d l = some r → r.length < l.length := by
  intro l
  induction l with
  | nil => intro r h; simp [scanToChar] at h
  | cons c rest ih =>
    intro r h
    simp only [scanToChar] at h
    by_cases h1 : c = d
    · simp only [if_pos h1, Option.some.injEq] at h
      subst h
      simp
    · by_cases h2 : c = '\n'
      · rw [if_neg h1, if_pos h2] at h
        exact absurd h (by simp)
      · simp only [if_neg h1, if_neg h2] at h
        exact Nat.lt_succ_of_lt (ih h)

theorem cssMatchAt_length_lt {l r : List Char} (h : cssMatchAt l = some r) :
    r.length < l.length := by
  unfold cssMatchAt at h
  split at h
  · next rest =>
    cases h1 : scanToChar '\x7b' rest with
    | none => rw [h1] at h; simp at h
    | some m =>
      rw [h1] at h
      have e1 := scanToChar_length_lt h1
      have e2 := scanToChar_length_lt (show scanToChar '\x7d' m = some r from h)
      simp only [List.length_cons]
      omega
  · simp at h


/-- Claim C9: with an empty candidate sequence the loop body never runs and
`most_similar_index` keeps its initial value `0`, which `get_most_similar_page`
returns without any error — even though `0` is not a valid index into the
empty candidate sequence. -/
theorem C9_empty_candidates (primary_page : Page) :
    get_most_similar_page primary_page [] = 0 ∧
      ¬ get_most_similar_page primary_page [] < ([] : List Page).length := by
  constructor
  · rfl
  · intro h
    rw [show get_most_similar_page primary_page [] = 0 from rfl] at h
    simp at h

/-- Claim C8: a page whose cleaned body has zero tokens is mapped by
`page_to_vec` to the all-zero vector of the vocabulary's size, for every
vocabulary; the `count / total` division is never executed, so no NaN can
appear. -/
theorem C8_empty_page_zero_vector (page : Page) (vocab : List (String × Nat))
    (h : pageTokens page = []) :
    page_to_vec page vocab = List.replicate vocab.length (0 : ℚ) := by
  simp [page_to_vec, h, firstOccNew]

/-- Witness for C8 at a concrete input: the body `"the"` cleans to zero
tokens (it is a stop-word), and the resulting vector over a one-entry
vocabulary is `[0]`. -/
theorem C8_empty_page_zero_vector_witness :
    pageTokens { title := "T", links := [], content := "the" } = [] ∧
      page_to_vec { title := "T", links := [], content := "the" } [("x", 0)] =
        List.replicate 1 (0 : ℚ) :=
  ⟨by decide, C8_empty_page_zero_vector _ [("x", 0)] (by decide)⟩

/-- Claim C2 (code behaviour at the failing inputs): `cosine_sim` has no
zero-magnitude guard, so for a zero-magnitude operand it computes
`0.0 / 0.0`, which is NaN — not the `0.0` the claim requires. -/
theorem C2_nan_on_zero_magnitude :
    cosine_sim [0] [1] = SimF.nan ∧ cosine_sim [0, 0] [0, 0] = SimF.nan := by
  constructor
  · simp [cosine_sim, magSq]
  · simp [cosine_sim, magSq]

theorem str_append_empty (s : String) : s ++ "" = s := by
  cases s with
  | mk data =>
    show String.mk (data ++ []) = String.mk data
    rw [List.append_nil]

theorem str_empty_append (s : String) : "" ++ s = s := by
  cases s with
  | mk data => rfl

theorem str_append_assoc (a b c : String) : a ++ b ++ c = a ++ (b ++ c) := by
  cases a; cases b; cases c
  show String.mk (_ ++ _ ++ _) = String.mk (_ ++ (_ ++ _))
  rw [List.append_assoc]

theorem toLower_idem (c : Char) : c.toLower.toLower = c.toLower := by
  unfold Char.toLower
  by_cases h : c.toNat ≥ 65 ∧ c.toNat ≤ 90
  · rw [if_pos h]
    have hv : (c.toNat + 32).isValidChar := by
      constructor
      omega
    have ht : (Char.ofNat (c.toNat + 32)).toNat = c.toNat + 32 := by
      rw [Char.ofNat, dif_pos hv]
      rfl
    rw [ht]
    rw [if_neg (by omega)]
  · rw [if_neg h, if_neg h]

theorem strLowerAscii_idem (s : String) : strLowerAscii (strLowerAscii s) = strLowerAscii s := by
  unfold strLowerAscii
  rw [show (String.mk (s.data.map Char.toLower)).data = s.data.map Char.toLower from rfl]
  rw [List.map_map]
  congr 1
  apply List.map_congr_left
  intro c _
  exact toLower_idem c

theorem cleanTokensSpec_lowered {body : String} {w : String}
    (h : w ∈ cleanTokensSpec body) : strLowerAscii w = w := by
  unfold cleanTokensSpec at h
  have h2 := List.mem_of_mem_filter h
  rcases List.mem_map.mp h2 with ⟨u, _, rfl⟩
  exact strLowerAscii_idem u

theorem foldl_push_eq (ws : List String) :
    ∀ acc : String,
      ws.foldl (fun a w => a ++ w ++ " ") acc =
        acc ++ (joinSpaced ws ++ (if ws.isEmpty then "" else " ")) := by
  induction ws with
  | nil =>
    intro acc
    show acc = acc ++ ("" ++ "")
    rw [str_append_empty, str_append_empty]
  | cons w rest ih =>
    intro acc
    cases rest with
    | nil =>
      show acc ++ w ++ " " = acc ++ (w ++ " ")
      rw [str_append_assoc]
    | cons w2 rest2 =>
      rw [List.foldl_cons, ih]
      rw [show joinSpaced (w :: w2 :: rest2) = w ++ " " ++ joinSpaced (w2 :: rest2) from rfl]
      simp only [List.isEmpty_cons]
      rw [str_append_assoc, str_append_assoc, str_append_assoc, str_append_assoc]

/-- Claim C4, counterexample: on the body `"Hello"` the code produces the
cleaned body `"hello "` — the surviving token followed by a trailing space —
while rejoining the surviving tokens with single spaces gives `"hello"`.
The two disagree, so `clean_document` does not return the spec's
rejoined-with-single-spaces Document. -/
theorem C4_counterexample :
    clean_document { title := "T", links := [], content := "Hello" } ≠
        clean_document_spec { title := "T", links := [], content := "Hello" } ∧
      (clean_document { title := "T", links := [], content := "Hello" }).content = "hello " ∧
      (clean_document_spec { title := "T", links := [], content := "Hello" }).content = "hello" := by
  refine ⟨by decide, by decide, by decide⟩

/-- Claim C4 as amended: `clean_document` keeps title and edges unchanged
and its body is the surviving tokens of the claim's per-token pipeline, in
order, each followed by one single space (equivalently: the tokens rejoined
with single spaces, plus one trailing space when any token survives). -/
theorem C4_clean_document_amended (page : Page) :
    clean_document page =
      { title := page.title, links := page.links,
        content := joinSpaced (cleanTokensSpec page.content) ++
          (if (cleanTokensSpec page.content).isEmpty then "" else " ") } := by
  show Page.mk page.title page.links
      ((((cleanTokensSpec page.content).map strLowerAscii).foldl
        (fun acc word => acc ++ word ++ " ") "")) = _
  have hmap : (cleanTokensSpec page.content).map strLowerAscii = cleanTokensSpec page.content := by
    have h2 : ∀ w ∈ cleanTokensSpec page.content, strLowerAscii w = id w :=
      fun w hw => cleanTokensSpec_lowered hw
    rw [List.map_congr_left h2, List.map_id]
  rw [hmap, foldl_push_eq, str_empty_append]

theorem pcr_cons_text (s : String) (rest : List Node) (raw : String) (links : List HyperLink) :
    pcrChildren (Node.text s :: rest) raw links = pcrChildren rest (raw ++ s) links := by
  simp [pcrChildren]

theorem pcr_cons_anchor_valid {attrs : List (String × String)} {href : String}
    (children rest : List Node) (raw : String) (links : List HyperLink)
    (h1 : attrOf attrs "href" = some href)
    (h2 : "/wiki/".data.isPrefixOf href.data = true) :
    pcrChildren (Node.elem "a" attrs children :: rest) raw links =
      pcrChildren rest raw
        (links ++ [{ title := nodeText (Node.elem "a" attrs children),
                     outlink := "https://en.wikipedia.org" ++ href }]) := by
  simp [pcrChildren, h1, h2]

theorem pcr_cons_anchor_bad {attrs : List (String × String)} {href : String}
    (children rest : List Node) (raw : String) (links : List HyperLink)
    (h1 : attrOf attrs "href" = some href)
    (h2 : ¬ "/wiki/".data.isPrefixOf href.data = true) :
    pcrChildren (Node.elem "a" attrs children :: rest) raw links =
      pcrChildren rest raw links := by
  simp [pcrChildren, h1, h2]

theorem pcr_cons_anchor_none {attrs : List (String × String)}
    (children rest : List Node) (raw : String) (links : List HyperLink)
    (h1 : attrOf attrs "href" = none) :
    pcrChildren (Node.elem "a" attrs children :: rest) raw links =
      pcrChildren rest raw links := by
  simp [pcrChildren, h1]

theorem pcr_cons_other {name : String} (attrs : List (String × String))
    (children rest : List Node) (raw : String) (links : List HyperLink)
    (hne : ¬ name = "a") :
    pcrChildren (Node.elem name attrs children :: rest) raw links =
      pcrChildren rest (pcrChildren children raw links).1 (pcrChildren children raw links).2 := by
  simp [pcrChildren, hne]

theorem pcr_links_general (nodes : List Node) (raw_content : String) (links : List HyperLink) :
    (pcrChildren nodes raw_content links).2 = links ++ (anchorsOf nodes).filterMap edgeOf := by
  induction nodes, raw_content, links using pcrChildren.induct with
  | case1 raw links => simp [pcrChildren, anchorsOf]
  | case2 s rest raw links ih =>
    rw [pcr_cons_text]
    rw [ih]
    simp [anchorsOf]
  | case3 attrs children rest raw links href h1 h2 ih =>
    rw [pcr_cons_anchor_valid children rest raw links h1 h2, ih]
    rw [show anchorsOf (Node.elem "a" attrs children :: rest) =
        Node.elem "a" attrs children :: anchorsOf rest by simp [anchorsOf]]
    rw [List.filterMap_cons]
    rw [show edgeOf (Node.elem "a" attrs children) =
        some { title := nodeText (Node.elem "a" attrs children),
               outlink := "https://en.wikipedia.org" ++ href } by simp [edgeOf, h1, h2]]
    simp [List.append_assoc]
  | case4 attrs children rest raw links href h1 h2 ih =>
    rw [pcr_cons_anchor_bad children rest raw links h1 h2, ih]
    rw [show anchorsOf (Node.elem "a" attrs children :: rest) =
        Node.elem "a" attrs children :: anchorsOf rest by simp [anchorsOf]]
    rw [List.filterMap_cons]
    rw [show edgeOf (Node.elem "a" attrs children) = none by simp [edgeOf, h1, h2]]
  | case5 attrs children rest raw links h1 ih =>
    rw [pcr_cons_anchor_none children rest raw links h1, ih]
    rw [show anchorsOf (Node.elem "a" attrs children :: rest) =
        Node.elem "a" attrs children :: anchorsOf rest by simp [anchorsOf]]
    rw [List.filterMap_cons]
    rw [show edgeOf (Node.elem "a" attrs children) = none by simp [edgeOf, h1]]
  | case6 name attrs children rest raw links hne p ih1 ih2 =>
    rw [pcr_cons_other attrs children rest raw links hne]
    rw [show anchorsOf (Node.elem name attrs children :: rest) =
        anchorsOf children ++ anchorsOf rest by simp [anchorsOf, hne]]
    rw [ih2, ih1]
    simp [List.filterMap_append, List.append_assoc]

/-- Claim C3: the edges the traversal collects are exactly, and in document
order, those of the encountered anchors whose `href` is present and starts
with `/wiki/` (each edge carrying the anchor's full contained text and the
origin-prefixed raw target); anchors failing the filter are skipped
silently.  In particular the spec's two concrete examples: the
`/wiki/Test_Link` anchor with text `"a link"` yields exactly its one edge,
and a `/not-wiki/x` anchor yields no edge. -/
theorem C3_extracted_edges :
    (∀ (nodes : List Node) (raw_content : String) (links : List HyperLink),
        (pcrChildren nodes raw_content links).2 = links ++ (anchorsOf nodes).filterMap edgeOf)
    ∧ pcrChildren [Node.elem "p" [] [Node.text "This is a test paragraph with ",
        Node.elem "a" [("href", "/wiki/Test_Link")] [Node.text "a link"], Node.text "."]] "" [] =
      ("This is a test paragraph with .",
        [{ title := "a link", outlink := "https://en.wikipedia.org/wiki/Test_Link" }])
    ∧ pcrChildren [Node.elem "a" [("href", "/not-wiki/x")] [Node.text "a link"]] "" [] =
      ("", []) := by
  refine ⟨pcr_links_general, ?_, ?_⟩
  · simp [pcrChildren, nodeText, nodeTextList, attrOf]
  · simp [pcrChildren, nodeText, nodeTextList, attrOf]

/-- Claim C10: erasing every traversal-skipped anchor — an anchor whose
`href` is absent or does not start with `/wiki/` — from the tree changes
neither the accumulated raw body text nor the collected edges, so the text
contained in such anchors is dropped entirely. -/
theorem C10_skipped_anchor_text_dropped (nodes : List Node) (raw_content : String)
    (links : List HyperLink) :
    pcrChildren nodes raw_content links = pcrChildren (dropSkipped nodes) raw_content links := by
  induction nodes, raw_content, links using pcrChildren.induct with
  | case1 raw links => simp [dropSkipped]
  | case2 s rest raw links ih =>
    rw [show dropSkipped (Node.text s :: rest) = Node.text s :: dropSkipped rest
      by simp [dropSkipped]]
    rw [pcr_cons_text, pcr_cons_text]
    exact ih
  | case3 attrs children rest raw links href h1 h2 ih =>
    rw [show dropSkipped (Node.elem "a" attrs children :: rest) =
        Node.elem "a" attrs children :: dropSkipped rest by simp [dropSkipped, h1, h2]]
    rw [pcr_cons_anchor_valid children rest raw links h1 h2,
      pcr_cons_anchor_valid children (dropSkipped rest) raw links h1 h2]
    exact ih
  | case4 attrs children rest raw links href h1 h2 ih =>
    rw [show dropSkipped (Node.elem "a" attrs children :: rest) = dropSkipped rest
      by simp [dropSkipped, h1, h2]]
    rw [pcr_cons_anchor_bad children rest raw links h1 h2]
    exact ih
  | case5 attrs children rest raw links h1 ih =>
    rw [show dropSkipped (Node.elem "a" attrs children :: rest) = dropSkipped rest
      by simp [dropSkipped, h1]]
    rw [pcr_cons_anchor_none children rest raw links h1]
    exact ih
  | case6 name attrs children rest raw links hne p ih1 ih2 =>
    rw [show dropSkipped (Node.elem name attrs children :: rest) =
        Node.elem name attrs (dropSkipped children) :: dropSkipped rest
      by simp [dropSkipped, hne]]
    rw [pcr_cons_other attrs children rest raw links hne,
      pcr_cons_other attrs (dropSkipped children) (dropSkipped rest) raw links hne]
    rw [← ih1]
    exact ih2


theorem removeCss_nil : removeCss [] = [] := by
  rw [removeCss]

theorem removeCss_cons_some {c : Char} {rest rem : List Char}
    (hm : cssMatchAt (c :: rest) = some rem) :
    removeCss (c :: rest) = removeCss rem := by
  rw [removeCss]
  split
  · next r hr =>
    rw [hm] at hr
    cases hr
    rfl
  · next hr =>
    rw [hm] at hr
    cases hr

theorem removeCss_cons_none {c : Char} {rest : List Char}
    (hm : cssMatchAt (c :: rest) = none) :
    removeCss (c :: rest) = c :: removeCss rest := by
  rw [removeCss]
  split
  · next r hr =>
    rw [hm] at hr
    cases hr
  · rfl

theorem removeCss_of_not_hasCss : ∀ {l : List Char}, hasCss l = false → removeCss l = l := by
  intro l
  induction l using removeCss.induct with
  | case1 => intro _; exact removeCss_nil
  | case2 c rest rem hm ih =>
    intro h
    rw [hasCss, hm] at h
    simp at h
  | case3 c rest hm ih =>
    intro h
    rw [hasCss, hm] at h
    simp only [Option.isSome_none, Bool.false_or] at h
    rw [removeCss_cons_none hm, ih h]

theorem removeCss_length_le : ∀ (l : List Char), (removeCss l).length ≤ l.length := by
  intro l
  induction l using removeCss.induct with
  | case1 => rw [removeCss_nil]
  | case2 c rest rem hm ih =>
    rw [removeCss_cons_some hm]
    have := cssMatchAt_length_lt hm
    omega
  | case3 c rest hm ih =>
    rw [removeCss_cons_none hm]
    simp only [List.length_cons]
    omega

theorem removeCss_length_lt_of_hasCss : ∀ {l : List Char}, hasCss l = true →
    (removeCss l).length < l.length := by
  intro l
  induction l using removeCss.induct with
  | case1 => intro h; rw [hasCss] at h; cases h
  | case2 c rest rem hm ih =>
    intro _
    rw [removeCss_cons_some hm]
    have h1 := cssMatchAt_length_lt hm
    have h2 := removeCss_length_le rem
    omega
  | case3 c rest hm ih =>
    intro h
    rw [hasCss, hm] at h
    simp only [Option.isSome_none, Bool.false_or] at h
    rw [removeCss_cons_none hm]
    have := ih h
    simp only [List.length_cons]
    omega

theorem not_hasCss_of_removeCss_eq {l : List Char} (h : removeCss l = l) : hasCss l = false := by
  by_contra hc
  simp only [Bool.not_eq_false] at hc
  have := removeCss_length_lt_of_hasCss hc
  rw [h] at this
  omega

theorem removePair_of_not_hasPair {a b : Char} : ∀ {l : List Char},
    hasPair a b l = false → removePair a b l = l := by
  intro l
  induction l using removePair.induct a b with
  | case1 x y rest hxy ih =>
    intro h
    obtain ⟨h1, h2⟩ := hxy
    subst h1; subst h2
    rw [hasPair] at h
    simp at h
  | case2 x y rest hxy ih =>
    intro h
    rw [hasPair] at h
    simp only [Bool.or_eq_false_iff] at h
    rw [removePair, if_neg hxy, ih h.2]
  | case3 l hl =>
    intro _
    cases l with
    | nil =>
      rw [removePair]
      exact hl
    | cons x t =>
      cases t with
      | nil =>
        rw [removePair]
        exact hl
      | cons y rest => exact absurd rfl (hl x y rest)

theorem removePair_length_le {a b : Char} : ∀ (l : List Char),
    (removePair a b l).length ≤ l.length := by
  intro l
  induction l using removePair.induct a b with
  | case1 x y rest hxy ih =>
    rw [removePair, if_pos hxy]
    simp only [List.length_cons]
    omega
  | case2 x y rest hxy ih =>
    rw [removePair, if_neg hxy]
    simp only [List.length_cons] at ih ⊢
    omega
  | case3 l hl =>
    cases l with
    | nil =>
      rw [removePair]
      exact hl
    | cons x t =>
      cases t with
      | nil =>
        rw [removePair]
        exact hl
      | cons y rest => exact absurd rfl (hl x y rest)

theorem removePair_length_lt_of_hasPair {a b : Char} : ∀ {l : List Char},
    hasPair a b l = true → (removePair a b l).length < l.length := by
  intro l
  induction l using removePair.induct a b with
  | case1 x y rest hxy ih =>
    intro _
    rw [removePair, if_pos hxy]
    have := removePair_length_le (a := a) (b := b) rest
    simp only [List.length_cons]
    omega
  | case2 x y rest hxy ih =>
    intro h
    rw [hasPair] at h
    have h2 : hasPair a b (y :: rest) = true := by
      rcases Bool.or_eq_true_iff.mp h with h1 | h1
      · refine absurd ?_ hxy
        simp only [Bool.and_eq_true, decide_eq_true_eq] at h1
        exact h1
      · exact h1
    rw [removePair, if_neg hxy]
    have := ih h2
    simp only [List.length_cons] at this ⊢
    omega
  | case3 l hl =>
    intro h
    cases l with
    | nil =>
      rw [hasPair] at h
      · cases h
      · exact hl
    | cons x t =>
      cases t with
      | nil =>
        rw [hasPair] at h
        · cases h
        · exact hl
      | cons y rest => exact absurd rfl (hl x y rest)

theorem not_hasPair_of_removePair_eq {a b : Char} {l : List Char}
    (h : removePair a b l = l) : hasPair a b l = false := by
  by_contra hc
  simp only [Bool.not_eq_false] at hc
  have := removePair_length_lt_of_hasPair hc
  rw [h] at this
  omega

theorem scanToChar_append {d : Char} : ∀ {l r t : List Char},
    scanToChar d l = some r → scanToChar d (l ++ t) = some (r ++ t) := by
  intro l
  induction l with
  | nil => intro r t h; rw [scanToChar] at h; cases h
  | cons c rest ih =>
    intro r t h
    rw [scanToChar] at h
    rw [List.cons_append, scanToChar]
    by_cases h1 : c = d
    · rw [if_pos h1] at h ⊢
      cases h
      rfl
    · rw [if_neg h1] at h ⊢
      by_cases h2 : c = '\n'
      · rw [if_pos h2] at h
        cases h
      · rw [if_neg h2] at h ⊢
        exact ih h

theorem cssMatchAt_append {l r t : List Char} (h : cssMatchAt l = some r) :
    cssMatchAt (l ++ t) = some (r ++ t) := by
  unfold cssMatchAt at h ⊢
  split at h
  · next rest =>
    cases hm : scanToChar '\x7b' rest with
    | none => rw [hm] at h; cases h
    | some m =>
      rw [hm] at h
      have h2 := show scanToChar '\x7d' m = some r from h
      have hm2 := scanToChar_append (t := t) hm
      have h3 := scanToChar_append (t := t) h2
      show (match ('.' :: 'm' :: 'w' :: '-' :: rest) ++ t with
        | '.' :: 'm' :: 'w' :: '-' :: rest => (scanToChar '\x7b' rest).bind (scanToChar '\x7d')
        | _ => none) = some (r ++ t)
      rw [show ('.' :: 'm' :: 'w' :: '-' :: rest) ++ t = '.' :: 'm' :: 'w' :: '-' :: (rest ++ t)
        from rfl]
      simp only [hm2]
      exact h3
  · cases h

theorem hasCss_append_right : ∀ {l : List Char} (t : List Char),
    hasCss l = true → hasCss (l ++ t) = true := by
  intro l
  induction l with
  | nil => intro t h; rw [hasCss] at h; cases h
  | cons c rest ih =>
    intro t h
    rw [hasCss] at h
    rw [List.cons_append, hasCss]
    rcases Bool.or_eq_true_iff.mp h with h1 | h1
    · rw [Option.isSome_iff_exists] at h1
      obtain ⟨r, hr⟩ := h1
      have happ := cssMatchAt_append (t := t) hr
      simp only [List.cons_append] at happ
      rw [happ]
      simp
    · rw [ih t h1]
      simp
  
theorem hasCss_append_left : ∀ (l : List Char) {t : List Char},
    hasCss t = true → hasCss (l ++ t) = true := by
  intro l
  induction l with
  | nil => intro t h; exact h
  | cons c rest ih =>
    intro t h
    rw [List.cons_append, hasCss, ih h]
    simp

theorem hasPair_cons_of_ne_nil {a b c : Char} {m : List Char} (hm : m ≠ []) :
    hasPair a b (c :: m) = ((c = a && m.head hm = b) || hasPair a b m) := by
  cases m with
  | nil => exact absurd rfl hm
  | cons y rest => rw [hasPair, List.head_cons]

theorem hasPair_ne_nil {a b : Char} {l : List Char} (h : hasPair a b l = true) : l ≠ [] := by
  intro he
  subst he
  cases h

theorem hasPair_append_right {a b : Char} : ∀ {l : List Char} (t : List Char),
    hasPair a b l = true → hasPair a b (l ++ t) = true := by
  intro l
  induction l using hasPair.induct a b with
  | case1 x y rest ih =>
    intro t h
    rw [hasPair] at h
    rw [List.cons_append, List.cons_append, hasPair]
    rcases Bool.or_eq_true_iff.mp h with h1 | h1
    · rw [h1]
      simp
    · have := ih t h1
      simp only [List.cons_append] at this
      rw [this]
      simp
  | case2 l hl =>
    intro t h
    cases l with
    | nil => cases h
    | cons x u =>
      cases u with
      | nil => cases h
      | cons y rest => exact absurd rfl (hl x y rest)

theorem hasPair_append_left {a b : Char} : ∀ (l : List Char) {t : List Char},
    hasPair a b t = true → hasPair a b (l ++ t) = true := by
  intro l
  induction l with
  | nil => intro t h; exact h
  | cons c rest ih =>
    intro t h
    rw [List.cons_append]
    have hrt : rest ++ t ≠ [] := by
      have := hasPair_ne_nil h
      intro he
      rcases List.append_eq_nil.mp he with ⟨_, h2⟩
      exact this h2
    rw [hasPair_cons_of_ne_nil hrt, ih h]
    simp

theorem noTwoWS_iff_hasWSRun : ∀ (l : List Char), noTwoWS l ↔ hasWSRun l = false := by
  intro l
  induction l using hasWSRun.induct with
  | case1 a b rest ih =>
    rw [hasWSRun]
    unfold noTwoWS at ih ⊢
    rw [List.chain'_cons, ih]
    simp only [Bool.or_eq_false_iff, Bool.and_eq_false_iff]
    constructor
    · rintro ⟨h1, h2⟩
      refine ⟨?_, h2⟩
      by_cases ha : a.isWhitespace = true
      · right
        by_contra hb
        simp only [Bool.not_eq_false] at hb
        exact h1 ⟨ha, hb⟩
      · left
        simp only [Bool.not_eq_true] at ha
        exact ha
    · rintro ⟨h1, h2⟩
      refine ⟨?_, h2⟩
      rintro ⟨ha, hb⟩
      rcases h1 with h | h
      · rw [ha] at h; cases h
      · rw [hb] at h; cases h
  | case2 l hl =>
    cases l with
    | nil =>
      rw [hasWSRun]
      · simp [noTwoWS]
      · exact hl
    | cons a t =>
      cases t with
      | nil =>
        rw [hasWSRun]
        · simp [noTwoWS]
        · exact hl
      | cons b rest => exact absurd rfl (hl a b rest)

theorem dropWhile_head_not {p : Char → Bool} : ∀ {l : List Char} {c : Char},
    (l.dropWhile p).head? = some c → p c = false := by
  intro l
  induction l with
  | nil => intro c h; simp [List.dropWhile] at h
  | cons x rest ih =>
    intro c h
    rw [List.dropWhile] at h
    by_cases hp : p x
    · rw [hp] at h
      exact ih h
    · simp only [Bool.not_eq_true] at hp
      rw [hp] at h
      simp only [List.head?_cons, Option.some.injEq] at h
      subst h
      exact hp

theorem collapseWS_head_not_ws : ∀ {m : List Char},
    (∀ c, m.head? = some c → c.isWhitespace = false) →
    ∀ {b : Char}, (collapseWS m).head? = some b → b.isWhitespace = false := by
  intro m hm b hb
  cases m with
  | nil => rw [collapseWS] at hb; cases hb
  | cons c rest =>
    have hc := hm c rfl
    rw [collapseWS, hc] at hb
    simp only [Bool.false_eq_true, if_false, List.head?_cons, Option.some.injEq] at hb
    subst hb
    exact hc

theorem collapseWS_canon : ∀ (l : List Char),
    noTwoWS (collapseWS l) ∧
      (∀ c ∈ collapseWS l, c.isWhitespace = true → c = ' ') := by
  intro l
  induction l using collapseWS.induct with
  | case1 =>
    rw [collapseWS]
    exact ⟨List.chain'_nil, by intro c hc; cases hc⟩
  | case2 c rest hws ih =>
    rw [collapseWS, if_pos hws]
    obtain ⟨ih1, ih2⟩ := ih
    refine ⟨?_, ?_⟩
    · refine List.Chain'.cons' ih1 ?_
      intro b hb
      intro hcon
      have hb2 := collapseWS_head_not_ws (fun c hc => dropWhile_head_not hc) hb
      rw [hb2] at hcon
      exact absurd hcon.2 (by simp)
    · intro d hd
      rcases List.mem_cons.mp hd with h1 | h1
      · intro _; exact h1
      · exact ih2 d h1
  | case3 c rest hws ih =>
    rw [collapseWS, if_neg hws]
    obtain ⟨ih1, ih2⟩ := ih
    refine ⟨?_, ?_⟩
    · refine List.Chain'.cons' ih1 ?_
      intro b _
      intro hcon
      simp only [Bool.not_eq_true] at hws
      rw [hws] at hcon
      exact absurd hcon.1 (by simp)
    · intro d hd
      rcases List.mem_cons.mp hd with h1 | h1
      · subst h1
        intro hdw
        exact absurd hdw (by simp_all)
      · exact ih2 d h1

theorem collapseWS_eq_self : ∀ {l : List Char},
    noTwoWS l → (∀ c ∈ l, c.isWhitespace = true → c = ' ') → collapseWS l = l := by
  intro l
  induction l using collapseWS.induct with
  | case1 => intro _ _; rw [collapseWS]
  | case2 c rest hws ih =>
    intro h1 h2
    rw [collapseWS, if_pos hws]
    have hcsp : c = ' ' := h2 c (List.mem_cons_self c rest) hws
    have hdrop : rest.dropWhile Char.isWhitespace = rest := by
      cases rest with
      | nil => rfl
      | cons d rest2 =>
        have h1x := List.chain'_cons.mp h1
        have hd : d.isWhitespace = false := by
          by_contra hcon
          simp only [Bool.not_eq_false] at hcon
          exact h1x.1 ⟨hws, hcon⟩
        rw [List.dropWhile_cons_of_neg (by rw [hd]; simp)]
    rw [hdrop] at ih ⊢
    rw [ih (List.Chain'.tail h1) (fun d hd => h2 d (List.mem_cons_of_mem c hd)), hcsp]
  | case3 c rest hws ih =>
    intro h1 h2
    rw [collapseWS, if_neg hws]
    rw [ih (List.Chain'.tail h1) (fun d hd => h2 d (List.mem_cons_of_mem c hd))]

theorem prefix_head_eq {l₁ l₂ : List Char} (h : l₁ <+: l₂) (hne : l₁ ≠ []) :
    l₁.head? = l₂.head? := by
  obtain ⟨t, rfl⟩ := h
  cases l₁ with
  | nil => exact absurd rfl hne
  | cons x r => rfl

theorem trimWS_idem (l : List Char) : trimWS (trimWS l) = trimWS l := by
  unfold trimWS
  set u := List.dropWhile Char.isWhitespace l with hu
  have hstepA : List.dropWhile Char.isWhitespace
      (List.rdropWhile Char.isWhitespace u) = List.rdropWhile Char.isWhitespace u := by
    cases hr : List.rdropWhile Char.isWhitespace u with
    | nil => rfl
    | cons x r =>
      have hpre := List.rdropWhile_prefix Char.isWhitespace (l := u)
      rw [hr] at hpre
      have hh := prefix_head_eq hpre (by simp)
      have hxu : u.head? = some x := by rw [← hh]; rfl
      have hx : Char.isWhitespace x = false := dropWhile_head_not (by rw [← hu]; exact hxu)
      rw [List.dropWhile_cons_of_neg (by rw [hx]; simp)]
  rw [hstepA]
  exact List.rdropWhile_idempotent _ _

theorem trim_decomp (l : List Char) : ∃ p1 p2, l = p1 ++ trimWS l ++ p2 := by
  unfold trimWS
  set u := List.dropWhile Char.isWhitespace l with hu
  have hsuf : u <:+ l := by rw [hu]; exact List.dropWhile_suffix _
  obtain ⟨p1, hp1⟩ := hsuf
  have hpre := List.rdropWhile_prefix Char.isWhitespace (l := u)
  obtain ⟨p2, hp2⟩ := hpre
  refine ⟨p1, p2, ?_⟩
  rw [List.append_assoc, hp2, hp1]

theorem trimWS_within (l : List Char) : trimWS l <:+: l := by
  obtain ⟨p1, p2, hd⟩ := trim_decomp l
  exact ⟨p1, p2, hd.symm⟩

theorem noTwoWS_trimWS {l : List Char} (h : noTwoWS l) : noTwoWS (trimWS l) :=
  List.Chain'.infix h (trimWS_within l)

theorem mem_of_mem_trimWS {l : List Char} {c : Char} (h : c ∈ trimWS l) : c ∈ l :=
  List.IsInfix.subset (trimWS_within l) h

theorem cmc_eq_trim_of_clean (s : String)
    (h1 : removeCss (collapseWS s.data) = collapseWS s.data)
    (h2 : removePair '(' ')' (collapseWS s.data) = collapseWS s.data)
    (h3 : removePair '[' ']' (collapseWS s.data) = collapseWS s.data) :
    clean_meta_content s = String.mk (trimWS (collapseWS s.data)) := by
  show String.mk (trimWS (removePair '[' ']' (removePair '(' ')'
      (removeCss (collapseWS s.data))))) = _
  rw [h1, h2, h3]

theorem hasCss_false_of_trim {y : List Char} (hy : hasCss y = false) :
    hasCss (trimWS y) = false := by
  by_contra hc
  simp only [Bool.not_eq_false] at hc
  obtain ⟨p1, p2, hd⟩ := trim_decomp y
  have h2 := hasCss_append_right p2 hc
  have h3 := hasCss_append_left p1 h2
  rw [← List.append_assoc, ← hd] at h3
  rw [hy] at h3
  cases h3

theorem hasPair_false_of_trim {a b : Char} {y : List Char} (hy : hasPair a b y = false) :
    hasPair a b (trimWS y) = false := by
  by_contra hc
  simp only [Bool.not_eq_false] at hc
  obtain ⟨p1, p2, hd⟩ := trim_decomp y
  have h2 := hasPair_append_right p2 hc
  have h3 := hasPair_append_left p1 h2
  rw [← List.append_assoc, ← hd] at h3
  rw [hy] at h3
  cases h3

/-- Claim C6, counterexample: `clean_meta_content` is not idempotent.  On
`"a () b"` the `()`-removal splices the two surrounding single spaces into a
double space (yielding `"a  b"`), which only a second application's
whitespace collapse merges (yielding `"a b"`). -/
theorem C6_counterexample :
    clean_meta_content (clean_meta_content "a () b") ≠ clean_meta_content "a () b" := by
  have e1 : clean_meta_content "a () b" = "a  b" := by
    simp [clean_meta_content, collapseWS, removeCss, removePair, trimWS, cssMatchAt, scanToChar,
      List.dropWhile, List.rdropWhile]
  rw [e1]
  have e2 : clean_meta_content "a  b" = "a b" := by
    simp [clean_meta_content, collapseWS, removeCss, removePair, trimWS, cssMatchAt, scanToChar,
      List.dropWhile, List.rdropWhile]
  rw [e2]
  decide

/-- Claim C6 as amended: `clean_meta_content` is idempotent on every input
on which the removal steps find nothing — no style fragment, no `()` and no
`[]` occurrence in the whitespace-collapsed text (in general a removal can
create a new whitespace run that only a second application collapses, so
idempotence fails, e.g. on `"a () b"`). -/
theorem C6_idempotent_amended (s : String)
    (h1 : removeCss (collapseWS s.data) = collapseWS s.data)
    (h2 : removePair '(' ')' (collapseWS s.data) = collapseWS s.data)
    (h3 : removePair '[' ']' (collapseWS s.data) = collapseWS s.data) :
    clean_meta_content (clean_meta_content s) = clean_meta_content s := by
  rw [cmc_eq_trim_of_clean s h1 h2 h3]
  set y := collapseWS s.data with hy
  have hcanon := collapseWS_canon s.data
  rw [← hy] at hcanon
  have ht_chain : noTwoWS (trimWS y) := noTwoWS_trimWS hcanon.1
  have ht_mem : ∀ c ∈ trimWS y, c.isWhitespace = true → c = ' ' :=
    fun c hc => hcanon.2 c (mem_of_mem_trimWS hc)
  have hcol : collapseWS (trimWS y) = trimWS y := collapseWS_eq_self ht_chain ht_mem
  have hnc : hasCss (trimWS y) = false :=
    hasCss_false_of_trim (not_hasCss_of_removeCss_eq h1)
  have hnp1 : hasPair '(' ')' (trimWS y) = false :=
    hasPair_false_of_trim (not_hasPair_of_removePair_eq h2)
  have hnp2 : hasPair '[' ']' (trimWS y) = false :=
    hasPair_false_of_trim (not_hasPair_of_removePair_eq h3)
  show String.mk (trimWS (removePair '[' ']' (removePair '(' ')'
      (removeCss (collapseWS (trimWS y)))))) = String.mk (trimWS y)
  rw [hcol, removeCss_of_not_hasCss hnc, removePair_of_not_hasPair hnp1,
    removePair_of_not_hasPair hnp2, trimWS_idem]

/-- Witness for C6 at a concrete input: on `"  hello   world "` no removal
step fires, and two applications of `clean_meta_content` agree. -/
theorem C6_idempotent_amended_witness :
    removeCss (collapseWS "  hello   world ".data) = collapseWS "  hello   world ".data
    ∧ removePair '(' ')' (collapseWS "  hello   world ".data) = collapseWS "  hello   world ".data
    ∧ removePair '[' ']' (collapseWS "  hello   world ".data) = collapseWS "  hello   world ".data
    ∧ clean_meta_content (clean_meta_content "  hello   world ") =
        clean_meta_content "  hello   world " := by
  have e1 : removeCss (collapseWS "  hello   world ".data) = collapseWS "  hello   world ".data := by
    simp [collapseWS, removeCss_nil, removeCss_cons_some, removeCss_cons_none, cssMatchAt,
      scanToChar, List.dropWhile]
  have e2 : removePair '(' ')' (collapseWS "  hello   world ".data) =
      collapseWS "  hello   world ".data := by
    simp [collapseWS, removePair, List.dropWhile]
  have e3 : removePair '[' ']' (collapseWS "  hello   world ".data) =
      collapseWS "  hello   world ".data := by
    simp [collapseWS, removePair, List.dropWhile]
  exact ⟨e1, e2, e3, C6_idempotent_amended _ e1 e2 e3⟩

/-- Claim C7, counterexample: the output of `clean_meta_content` can contain
a run of two whitespace characters: on `"a () b"` the `()`-removal leaves
`"a  b"`. -/
theorem C7_counterexample :
    ¬ noTwoWS (clean_meta_content "a () b").data := by
  have e1 : clean_meta_content "a () b" = "a  b" := by
    simp [clean_meta_content, collapseWS, removeCss, removePair, trimWS, cssMatchAt, scanToChar,
      List.dropWhile, List.rdropWhile]
  rw [e1, noTwoWS_iff_hasWSRun]
  decide

/-- Claim C7 as amended: the output of `clean_meta_content` is always
trimmed of leading and trailing whitespace (trimming it again changes
nothing); it contains no run of more than one whitespace character whenever
the removal steps find nothing to remove in the collapsed text — in general
a removal can splice two single spaces into a run (e.g. `"a () b"` yields
`"a  b"`). -/
theorem C7_invariants_amended (s : String) :
    trimWS (clean_meta_content s).data = (clean_meta_content s).data
    ∧ ((removeCss (collapseWS s.data) = collapseWS s.data ∧
        removePair '(' ')' (collapseWS s.data) = collapseWS s.data ∧
        removePair '[' ']' (collapseWS s.data) = collapseWS s.data) →
      noTwoWS (clean_meta_content s).data) := by
  constructor
  · have hd : (clean_meta_content s).data =
        trimWS (removePair '[' ']' (removePair '(' ')' (removeCss (collapseWS s.data)))) := rfl
    rw [hd, trimWS_idem]
  · rintro ⟨h1, h2, h3⟩
    rw [cmc_eq_trim_of_clean s h1 h2 h3]
    show noTwoWS (trimWS (collapseWS s.data))
    exact noTwoWS_trimWS (collapseWS_canon s.data).1

/-- Witness for C7 at a concrete input: on `"  hello   world "` the output
is trimmed and has no whitespace run. -/
theorem C7_invariants_amended_witness :
    trimWS (clean_meta_content "  hello   world ").data =
        (clean_meta_content "  hello   world ").data
    ∧ noTwoWS (clean_meta_content "  hello   world ").data := by
  refine ⟨(C7_invariants_amended "  hello   world ").1, ?_⟩
  refine (C7_invariants_amended "  hello   world ").2 ⟨?_, ?_, ?_⟩
  · simp [collapseWS, removeCss_nil, removeCss_cons_some, removeCss_cons_none, cssMatchAt,
      scanToChar, List.dropWhile]
  · simp [collapseWS, removePair, List.dropWhile]
  · simp [collapseWS, removePair, List.dropWhile]

theorem build_vocab_eq_fold_aux : ∀ (pages : List Page) (acc : List (String × Nat)),
    pages.foldl (fun vocab page => (pageTokens page).foldl vocabInsert vocab) acc =
      ((pages.map pageTokens).flatten).foldl vocabInsert acc := by
  intro pages
  induction pages with
  | nil => intro acc; rfl
  | cons p rest ih =>
    intro acc
    rw [List.map_cons, List.flatten_cons, List.foldl_append, List.foldl_cons, ih]

theorem build_vocab_eq_fold (pages : List Page) :
    build_vocab pages = (allTokens pages).foldl vocabInsert [] :=
  build_vocab_eq_fold_aux pages []

theorem withIdxAux_length : ∀ (l : List String) (i : Nat), (withIdxAux i l).length = l.length := by
  intro l
  induction l with
  | nil => intro i; rfl
  | cons w rest ih =>
    intro i
    rw [withIdxAux, List.length_cons, List.length_cons, ih]

theorem withIdxAux_append_single : ∀ (ks : List String) (i : Nat) (t : String),
    withIdxAux i (ks ++ [t]) = withIdxAux i ks ++ [(t, i + ks.length)] := by
  intro ks
  induction ks with
  | nil =>
    intro i t
    rw [List.nil_append, withIdxAux, withIdxAux, withIdxAux]
    rfl
  | cons k rest ih =>
    intro i t
    rw [List.cons_append, withIdxAux, withIdxAux, ih]
    rw [List.cons_append, List.length_cons]
    have : i + (rest.length + 1) = i + 1 + rest.length := by omega
    rw [this]

theorem withIdxAux_any_key : ∀ (ks : List String) (i : Nat) (w : String),
    ((withIdxAux i ks).any (fun kv => kv.1 == w) = true) ↔ w ∈ ks := by
  intro ks
  induction ks with
  | nil => intro i w; simp [withIdxAux]
  | cons k rest ih =>
    intro i w
    rw [withIdxAux, List.any_cons]
    simp only [Bool.or_eq_true, List.mem_cons]
    constructor
    · rintro (h | h)
      · left
        simp only [beq_iff_eq] at h
        exact h.symm
      · right
        exact (ih (i + 1) w).mp h
    · rintro (h | h)
      · left
        simp [h]
      · right
        exact (ih (i + 1) w).mpr h

theorem vocabGet_withIdxAux : ∀ (l : List String) (i : Nat) (w : String),
    vocabGet (withIdxAux i l) w =
      if w ∈ l then some (i + l.indexOf w) else none := by
  intro l
  induction l with
  | nil => intro i w; simp [withIdxAux, vocabGet]
  | cons x rest ih =>
    intro i w
    rw [withIdxAux]
    unfold vocabGet
    rw [List.find?]
    by_cases hxw : x = w
    · subst hxw
      simp only [beq_self_eq_true]
      rw [if_pos (List.mem_cons_self x rest)]
      rw [List.indexOf_cons_self]
      rfl
    · have hbeq : ((x, i).1 == w) = false := by
        simp [hxw]
      rw [hbeq]
      have := ih (i + 1) w
      unfold vocabGet at this
      rw [this]
      by_cases hmem : w ∈ rest
      · rw [if_pos hmem, if_pos (List.mem_cons_of_mem x hmem)]
        rw [List.indexOf_cons_ne rest (by exact hxw)]
        congr 1
        omega
      · rw [if_neg hmem, if_neg (by
          intro hc
          rcases List.mem_cons.mp hc with h | h
          · exact hxw h.symm
          · exact hmem h)]

theorem map_snd_withIdxAux : ∀ (l : List String) (i : Nat),
    (withIdxAux i l).map Prod.snd = (List.range l.length).map (fun x => x + i) := by
  intro l
  induction l with
  | nil => intro i; rfl
  | cons w rest ih =>
    intro i
    rw [withIdxAux, List.map_cons, ih]
    rw [List.length_cons, List.range_succ_eq_map]
    rw [List.map_cons, List.map_map]
    congr 1
    · omega
    · apply List.map_congr_left
      intro x _
      show x + (i + 1) = x + 1 + i
      omega

theorem vocabFold_withIdx : ∀ (toks : List String) (ks : List String),
    toks.foldl vocabInsert (withIdxAux 0 ks) = withIdxAux 0 (ks ++ firstOccNew ks toks) := by
  intro toks
  induction toks with
  | nil => intro ks; rw [firstOccNew, List.append_nil]; rfl
  | cons t rest ih =>
    intro ks
    rw [List.foldl_cons, firstOccNew]
    by_cases hmem : t ∈ ks
    · rw [if_pos hmem]
      have hins : vocabInsert (withIdxAux 0 ks) t = withIdxAux 0 ks := by
        unfold vocabInsert
        rw [if_pos ((withIdxAux_any_key ks 0 t).mpr hmem)]
      rw [hins, ih]
    · rw [if_neg hmem]
      have hins : vocabInsert (withIdxAux 0 ks) t = withIdxAux 0 (ks ++ [t]) := by
        unfold vocabInsert
        rw [if_neg (by
          intro hc
          exact hmem ((withIdxAux_any_key ks 0 t).mp hc))]
        rw [withIdxAux_append_single, withIdxAux_length]
        simp
      rw [hins, ih (ks ++ [t]), List.append_assoc]
      rfl

theorem build_vocab_withIdx (pages : List Page) :
    build_vocab pages = withIdxAux 0 (firstOccNew [] (allTokens pages)) := by
  rw [build_vocab_eq_fold]
  have := vocabFold_withIdx (allTokens pages) []
  rw [show withIdxAux 0 [] = [] from rfl] at this
  rw [this, List.nil_append]

theorem mem_of_mem_firstOccNew : ∀ {toks ks : List String} {w : String},
    w ∈ firstOccNew ks toks → w ∈ toks ∧ w ∉ ks := by
  intro toks
  induction toks with
  | nil => intro ks w h; rw [firstOccNew] at h; cases h
  | cons t rest ih =>
    intro ks w h
    rw [firstOccNew] at h
    by_cases hmem : t ∈ ks
    · rw [if_pos hmem] at h
      obtain ⟨h1, h2⟩ := ih h
      exact ⟨List.mem_cons_of_mem t h1, h2⟩
    · rw [if_neg hmem] at h
      rcases List.mem_cons.mp h with h1 | h1
      · subst h1
        exact ⟨List.mem_cons_self w rest, hmem⟩
      · obtain ⟨h1, h2⟩ := ih h1
        refine ⟨List.mem_cons_of_mem t h1, ?_⟩
        intro hc
        exact h2 (List.mem_append_left [t] hc)

theorem mem_ks_or_firstOccNew : ∀ {toks ks : List String} {w : String},
    w ∈ toks → w ∈ ks ∨ w ∈ firstOccNew ks toks := by
  intro toks
  induction toks with
  | nil => intro ks w h; cases h
  | cons t rest ih =>
    intro ks w h
    rw [firstOccNew]
    by_cases hmem : t ∈ ks
    · rw [if_pos hmem]
      rcases List.mem_cons.mp h with h1 | h1
      · subst h1; exact Or.inl hmem
      · exact ih h1
    · rw [if_neg hmem]
      rcases List.mem_cons.mp h with h1 | h1
      · subst h1
        exact Or.inr (List.mem_cons_self w _)
      · rcases @ih (ks ++ [t]) w h1 with h2 | h2
        · rcases List.mem_append.mp h2 with h3 | h3
          · exact Or.inl h3
          · simp only [List.mem_singleton] at h3
            subst h3
            exact Or.inr (List.mem_cons_self w _)
        · exact Or.inr (List.mem_cons_of_mem t h2)

theorem pairwise_firstOccNew : ∀ (toks ks : List String),
    List.Pairwise (fun a b => toks.indexOf a < toks.indexOf b) (firstOccNew ks toks) := by
  intro toks
  induction toks with
  | nil => intro ks; rw [firstOccNew]; exact List.Pairwise.nil
  | cons t rest ih =>
    intro ks
    rw [firstOccNew]
    by_cases hmem : t ∈ ks
    · rw [if_pos hmem]
      refine List.Pairwise.imp_of_mem ?_ (ih ks)
      intro a b ha hb hlt
      have hat : a ≠ t := by
        intro he; subst he
        exact (mem_of_mem_firstOccNew ha).2 hmem
      have hbt : b ≠ t := by
        intro he; subst he
        exact (mem_of_mem_firstOccNew hb).2 hmem
      rw [List.indexOf_cons_ne rest (fun he => hat he.symm),
        List.indexOf_cons_ne rest (fun he => hbt he.symm)]
      omega
    · rw [if_neg hmem]
      refine List.Pairwise.cons ?_ ?_
      · intro b hb
        have hbt : b ≠ t := by
          intro he; subst he
          exact (mem_of_mem_firstOccNew hb).2 (List.mem_append_right ks (List.mem_singleton.mpr rfl))
        rw [List.indexOf_cons_self, List.indexOf_cons_ne rest (fun he => hbt he.symm)]
        omega
      · refine List.Pairwise.imp_of_mem ?_ (ih (ks ++ [t]))
        intro a b ha hb hlt
        have hat : a ≠ t := by
          intro he; subst he
          exact (mem_of_mem_firstOccNew ha).2 (List.mem_append_right ks (List.mem_singleton.mpr rfl))
        have hbt : b ≠ t := by
          intro he; subst he
          exact (mem_of_mem_firstOccNew hb).2 (List.mem_append_right ks (List.mem_singleton.mpr rfl))
        rw [List.indexOf_cons_ne rest (fun he => hat he.symm),
          List.indexOf_cons_ne rest (fun he => hbt he.symm)]
        omega

theorem firstOcc_order (toks : List String) {w1 w2 : String}
    (h1 : w1 ∈ firstOccNew [] toks) (h2 : w2 ∈ firstOccNew [] toks) :
    ((firstOccNew [] toks).indexOf w1 < (firstOccNew [] toks).indexOf w2 ↔
      toks.indexOf w1 < toks.indexOf w2) := by
  set fo := firstOccNew [] toks with hfo
  have hpw := pairwise_firstOccNew toks []
  rw [← hfo] at hpw
  have hlt1 : fo.indexOf w1 < fo.length := List.indexOf_lt_length.mpr h1
  have hlt2 : fo.indexOf w2 < fo.length := List.indexOf_lt_length.mpr h2
  have hget : ∀ {i j : Nat} (hi : i < fo.length) (hj : j < fo.length), i < j →
      toks.indexOf (fo.get ⟨i, hi⟩) < toks.indexOf (fo.get ⟨j, hj⟩) := by
    intro i j hi hj hij
    exact List.pairwise_iff_get.mp hpw ⟨i, hi⟩ ⟨j, hj⟩ hij
  constructor
  · intro hlt
    have := hget hlt1 hlt2 hlt
    rw [List.indexOf_get hlt1, List.indexOf_get hlt2] at this
    exact this
  · intro hlt
    rcases Nat.lt_trichotomy (fo.indexOf w1) (fo.indexOf w2) with h | h | h
    · exact h
    · exfalso
      have : w1 = w2 := by
        have e1 := List.indexOf_get hlt1
        have e2 := List.indexOf_get hlt2
        rw [← e1, ← e2]
        congr 1
        exact Fin.ext h
      subst this
      omega
    · exfalso
      have := hget hlt2 hlt1 h
      rw [List.indexOf_get hlt1, List.indexOf_get hlt2] at this
      omega

theorem vocabGet_build_vocab (pages : List Page) (w : String) :
    vocabGet (build_vocab pages) w =
      if w ∈ firstOccNew [] (allTokens pages) then
        some ((firstOccNew [] (allTokens pages)).indexOf w)
      else none := by
  rw [build_vocab_withIdx, vocabGet_withIdxAux]
  by_cases h : w ∈ firstOccNew [] (allTokens pages)
  · rw [if_pos h, if_pos h]
    simp
  · rw [if_neg h, if_neg h]

theorem vocab_lookup_total {pages : List Page} {w : String} (h : w ∈ allTokens pages) :
    ∃ i, vocabGet (build_vocab pages) w = some i ∧ i < (build_vocab pages).length := by
  have hfo : w ∈ firstOccNew [] (allTokens pages) := by
    rcases @mem_ks_or_firstOccNew _ [] _ h with h1 | h1
    · cases h1
    · exact h1
  refine ⟨(firstOccNew [] (allTokens pages)).indexOf w, ?_, ?_⟩
  · rw [vocabGet_build_vocab, if_pos hfo]
  · rw [build_vocab_withIdx, withIdxAux_length]
    exact List.indexOf_lt_length.mpr hfo

theorem vocabGet_some_iff {pages : List Page} {w : String} {i : Nat}
    (h : vocabGet (build_vocab pages) w = some i) :
    w ∈ firstOccNew [] (allTokens pages) ∧
      i = (firstOccNew [] (allTokens pages)).indexOf w := by
  rw [vocabGet_build_vocab] at h
  by_cases hm : w ∈ firstOccNew [] (allTokens pages)
  · rw [if_pos hm] at h
    cases h
    exact ⟨hm, rfl⟩
  · rw [if_neg hm] at h
    cases h

theorem vocabGet_inj {pages : List Page} {w1 w2 : String} {i : Nat}
    (h1 : vocabGet (build_vocab pages) w1 = some i)
    (h2 : vocabGet (build_vocab pages) w2 = some i) : w1 = w2 := by
  obtain ⟨hm1, he1⟩ := vocabGet_some_iff h1
  obtain ⟨hm2, he2⟩ := vocabGet_some_iff h2
  have hl1 := List.indexOf_lt_length.mpr hm1
  have hl2 := List.indexOf_lt_length.mpr hm2
  have e1 := List.indexOf_get hl1
  have e2 := List.indexOf_get hl2
  have hx : (firstOccNew [] (allTokens pages)).indexOf w1 =
      (firstOccNew [] (allTokens pages)).indexOf w2 := by
    rw [← he1, ← he2]
  rw [← e1, ← e2]
  congr 1
  exact Fin.ext hx

theorem mem_allTokens {pages : List Page} {p : Page} {w : String}
    (hp : p ∈ pages) (hw : w ∈ pageTokens p) : w ∈ allTokens pages := by
  unfold allTokens
  rw [List.mem_flatten]
  exact ⟨pageTokens p, List.mem_map_of_mem pageTokens hp, hw⟩

/-- Claim C5: the shared vocabulary built over an ordered document group
maps tokens to dense, contiguous indices starting at 0 (its indices, in
insertion order, are exactly `0, 1, 2, …`), every token of the cleaned
token stream is mapped, index order coincides with first-occurrence order
in the token stream (hence never with counts or alphabetic order), equal
tokens map to the same index (lookup is a function of the token), and a
repeated run over the same ordered input builds the identical vocabulary
(the embedding is a pure function of its input). -/
theorem C5_vocabulary (docs : List Page) :
    (build_vocab docs).map Prod.snd = List.range (build_vocab docs).length
    ∧ (∀ w, w ∈ allTokens docs →
        ∃ i, vocabGet (build_vocab docs) w = some i ∧ i < (build_vocab docs).length)
    ∧ (∀ w1 w2 i1 i2, vocabGet (build_vocab docs) w1 = some i1 →
        vocabGet (build_vocab docs) w2 = some i2 →
        (i1 < i2 ↔ (allTokens docs).indexOf w1 < (allTokens docs).indexOf w2))
    ∧ build_vocab docs = build_vocab docs := by
  refine ⟨?_, fun w hw => vocab_lookup_total hw, ?_, rfl⟩
  · rw [build_vocab_withIdx, map_snd_withIdxAux, withIdxAux_length]
    have : (fun x : Nat => x + 0) = id := by
      funext x
      simp
    rw [this, List.map_id]
  · intro w1 w2 i1 i2 h1 h2
    obtain ⟨hm1, he1⟩ := vocabGet_some_iff h1
    obtain ⟨hm2, he2⟩ := vocabGet_some_iff h2
    subst he1
    subst he2
    exact firstOcc_order (allTokens docs) hm1 hm2

/-- Witness for C5 at a concrete input: over the single document with
cleaned body `"banana apple banana"`, the vocabulary is dense from 0,
`"banana"` (first occurrence first) gets index 0 and `"apple"` index 1, and
index order matches first-occurrence order. -/
theorem C5_vocabulary_witness :
    (build_vocab [{ title := "A", links := [], content := "banana apple banana" }]).map Prod.snd =
      List.range (build_vocab [{ title := "A", links := [], content := "banana apple banana" }]).length
    ∧ (∃ i, vocabGet (build_vocab [{ title := "A", links := [], content := "banana apple banana" }])
        "apple" = some i ∧
        i < (build_vocab [{ title := "A", links := [], content := "banana apple banana" }]).length)
    ∧ ((0 : Nat) < 1 ↔
        (allTokens [{ title := "A", links := [], content := "banana apple banana" }]).indexOf
            "banana" <
          (allTokens [{ title := "A", links := [], content := "banana apple banana" }]).indexOf
            "apple") := by
  refine ⟨(C5_vocabulary _).1, (C5_vocabulary _).2.1 "apple" (by decide), ?_⟩
  exact (C5_vocabulary _).2.2.1 "banana" "apple" 0 1 (by decide) (by decide)

theorem page_to_vec_eq (page : Page) (vocab : List (String × Nat)) :
    page_to_vec page vocab =
      (firstOccNew [] (pageTokens page)).foldl
        (fun vector word =>
          match vocabGet vocab word with
          | some index =>
            vector.set index (((pageTokens page).count word : ℚ) /
              ((pageTokens page).length : ℚ))
          | none => vector)
        (List.replicate vocab.length 0) := rfl

theorem ptv_fold_length (vocab : List (String × Nat)) (words : List String) :
    ∀ (ds : List String) (init : List ℚ),
      (ds.foldl (fun vector word =>
        match vocabGet vocab word with
        | some index => vector.set index ((words.count word : ℚ) / (words.length : ℚ))
        | none => vector) init).length = init.length := by
  intro ds
  induction ds with
  | nil => intro init; rfl
  | cons d rest ih =>
    intro init
    rw [List.foldl_cons]
    cases hv : vocabGet vocab d with
    | none =>
      simp only [hv]
      exact ih init
    | some j =>
      simp only [hv]
      rw [ih]
      exact List.length_set init j _

theorem ptv_fold_nonneg (vocab : List (String × Nat)) (words : List String) :
    ∀ (ds : List String) (init : List ℚ), (∀ q ∈ init, 0 ≤ q) →
      ∀ q ∈ ds.foldl (fun vector word =>
        match vocabGet vocab word with
        | some index => vector.set index ((words.count word : ℚ) / (words.length : ℚ))
        | none => vector) init, 0 ≤ q := by
  intro ds
  induction ds with
  | nil => intro init h; exact h
  | cons d rest ih =>
    intro init h
    rw [List.foldl_cons]
    cases hv : vocabGet vocab d with
    | none =>
      simp only [hv]
      exact ih init h
    | some j =>
      simp only [hv]
      refine ih _ ?_
      intro q hq
      rcases List.mem_or_eq_of_mem_set hq with h1 | h1
      · exact h q h1
      · subst h1
        refine div_nonneg ?_ ?_
        · exact_mod_cast Nat.zero_le _
        · exact_mod_cast Nat.zero_le _

theorem ptv_fold_slot (vocab : List (String × Nat)) (words : List String)
    (w : String) (i : Nat) (hget : vocabGet vocab w = some i) :
    ∀ (ds : List String) (init : List ℚ),
      (∀ d ∈ ds, ∀ j, vocabGet vocab d = some j → j = i → d = w) →
      i < init.length →
      init[i]? = some ((words.count w : ℚ) / (words.length : ℚ)) →
      (ds.foldl (fun vector word =>
        match vocabGet vocab word with
        | some index => vector.set index ((words.count word : ℚ) / (words.length : ℚ))
        | none => vector) init)[i]? =
        some ((words.count w : ℚ) / (words.length : ℚ)) := by
  intro ds
  induction ds with
  | nil => intro init _ _ h; exact h
  | cons d rest ih =>
    intro init honly hlen hslot
    rw [List.foldl_cons]
    cases hv : vocabGet vocab d with
    | none =>
      simp only [hv]
      exact ih init (fun d hd => honly d (List.mem_cons_of_mem _ hd)) hlen hslot
    | some j =>
      simp only [hv]
      by_cases hji : j = i
      · have hdw : d = w := honly d (List.mem_cons_self d rest) j hv hji
        subst hdw
        subst hji
        refine ih _ (fun d hd => honly d (List.mem_cons_of_mem _ hd)) ?_ ?_
        · rw [List.length_set]
          exact hlen
        · rw [List.getElem?_set_self hlen]
      · refine ih _ (fun d hd => honly d (List.mem_cons_of_mem _ hd)) ?_ ?_
        · rw [List.length_set]
          exact hlen
        · rw [List.getElem?_set_ne hji]
          exact hslot

theorem ptv_fold_reach (vocab : List (String × Nat)) (words : List String)
    (w : String) (i : Nat) (hget : vocabGet vocab w = some i) :
    ∀ (ds : List String) (init : List ℚ), w ∈ ds →
      (∀ d ∈ ds, ∀ j, vocabGet vocab d = some j → j = i → d = w) →
      i < init.length →
      (ds.foldl (fun vector word =>
        match vocabGet vocab word with
        | some index => vector.set index ((words.count word : ℚ) / (words.length : ℚ))
        | none => vector) init)[i]? =
        some ((words.count w : ℚ) / (words.length : ℚ)) := by
  intro ds
  induction ds with
  | nil => intro init hw; cases hw
  | cons d rest ih =>
    intro init hw honly hlen
    rw [List.foldl_cons]
    by_cases hdw : d = w
    · subst hdw
      simp only [hget]
      refine ptv_fold_slot vocab words d i hget rest _
        (fun d2 hd2 => honly d2 (List.mem_cons_of_mem _ hd2)) ?_ ?_
      · rw [List.length_set]
        exact hlen
      · rw [List.getElem?_set_self hlen]
    · have hwrest : w ∈ rest := by
        rcases List.mem_cons.mp hw with h1 | h1
        · exact absurd h1.symm hdw
        · exact h1
      cases hv : vocabGet vocab d with
      | none =>
        simp only [hv]
        exact ih init hwrest (fun d2 hd2 => honly d2 (List.mem_cons_of_mem _ hd2)) hlen
      | some j =>
        have hji : j ≠ i := by
          intro he
          exact hdw (honly d (List.mem_cons_self d rest) j hv he)
        simp only [hv]
        refine ih _ hwrest (fun d2 hd2 => honly d2 (List.mem_cons_of_mem _ hd2)) ?_
        rw [List.length_set]
        exact hlen

theorem page_to_vec_nonneg (page : Page) (vocab : List (String × Nat)) :
    ∀ q ∈ page_to_vec page vocab, 0 ≤ q := by
  rw [page_to_vec_eq]
  refine ptv_fold_nonneg vocab (pageTokens page) _ _ ?_
  intro q hq
  rw [List.eq_of_mem_replicate hq]

theorem magSq_nonneg (v : List ℚ) : 0 ≤ magSq v := by
  unfold magSq
  refine List.sum_nonneg ?_
  intro x hx
  rcases List.mem_map.mp hx with ⟨q, _, rfl⟩
  positivity

theorem magSq_pos_of_pos_entry {v : List ℚ} {q : ℚ} (hq : q ∈ v) (hpos : 0 < q) :
    0 < magSq v := by
  unfold magSq
  have hmem : q ^ 2 ∈ v.map (fun x => x ^ 2) := List.mem_map_of_mem _ hq
  have hle : q ^ 2 ≤ (v.map (fun x => x ^ 2)).sum := by
    refine List.single_le_sum ?_ _ hmem
    intro x hx
    rcases List.mem_map.mp hx with ⟨r, _, rfl⟩
    positivity
  have : 0 < q ^ 2 := by positivity
  linarith

theorem magSq_page_to_vec_ne_zero {pages : List Page} {p : Page} (hp : p ∈ pages)
    (hne : pageTokens p ≠ []) : magSq (page_to_vec p (build_vocab pages)) ≠ 0 := by
  obtain ⟨w, hw⟩ := List.exists_mem_of_ne_nil _ hne
  obtain ⟨i, hget, hilt⟩ := vocab_lookup_total (mem_allTokens hp hw)
  have hwds : w ∈ firstOccNew [] (pageTokens p) := by
    rcases @mem_ks_or_firstOccNew _ [] _ hw with h1 | h1
    · cases h1
    · exact h1
  have honly : ∀ d ∈ firstOccNew [] (pageTokens p), ∀ j,
      vocabGet (build_vocab pages) d = some j → j = i → d = w := by
    intro d _ j hj hji
    subst hji
    exact vocabGet_inj hj hget
  have hlen : i < (List.replicate (build_vocab pages).length (0 : ℚ)).length := by
    rw [List.length_replicate]
    exact hilt
  have hslot := ptv_fold_reach (build_vocab pages) (pageTokens p) w i hget
    (firstOccNew [] (pageTokens p)) (List.replicate (build_vocab pages).length 0)
    hwds honly hlen
  have htarget_pos : 0 < ((pageTokens p).count w : ℚ) / ((pageTokens p).length : ℚ) := by
    refine div_pos ?_ ?_
    · have : 0 < (pageTokens p).count w := List.count_pos_iff.mpr hw
      exact_mod_cast this
    · have : 0 < (pageTokens p).length := List.length_pos.mpr hne
      exact_mod_cast this
  have hmem : ((pageTokens p).count w : ℚ) / ((pageTokens p).length : ℚ) ∈
      page_to_vec p (build_vocab pages) := by
    rw [page_to_vec_eq]
    exact List.getElem?_mem hslot
  have := magSq_pos_of_pos_entry hmem htarget_pos
  exact ne_of_gt this

theorem zipWith_mul_nonneg : ∀ (v1 v2 : List ℚ), (∀ q ∈ v1, 0 ≤ q) → (∀ q ∈ v2, 0 ≤ q) →
    ∀ q ∈ List.zipWith (fun a b => a * b) v1 v2, 0 ≤ q := by
  intro v1
  induction v1 with
  | nil => intro v2 _ _ q hq; cases hq
  | cons a rest ih =>
    intro v2 h1 h2 q hq
    cases v2 with
    | nil => cases hq
    | cons b rest2 =>
      rw [List.zipWith_cons_cons] at hq
      rcases List.mem_cons.mp hq with h3 | h3
      · subst h3
        exact mul_nonneg (h1 a (List.mem_cons_self a rest)) (h2 b (List.mem_cons_self b rest2))
      · exact ih rest2 (fun q hq => h1 q (List.mem_cons_of_mem a hq))
          (fun q hq => h2 q (List.mem_cons_of_mem b hq)) q h3

theorem cosine_sim_val_of_ne_zero {v1 v2 : List ℚ} (h1 : magSq v1 ≠ 0) (h2 : magSq v2 ≠ 0)
    (hn1 : ∀ q ∈ v1, 0 ≤ q) (hn2 : ∀ q ∈ v2, 0 ≤ q) :
    ∃ x : ℝ, cosine_sim v1 v2 = SimF.val x ∧ 0 ≤ x := by
  unfold cosine_sim
  rw [if_neg (by
    rintro (h | h)
    · exact h1 h
    · exact h2 h)]
  refine ⟨_, rfl, ?_⟩
  refine div_nonneg ?_ ?_
  · have hdot : (0 : ℚ) ≤ (List.zipWith (fun a b => a * b) v1 v2).sum :=
      List.sum_nonneg (zipWith_mul_nonneg v1 v2 hn1 hn2)
    exact_mod_cast hdot
  · exact mul_nonneg (Real.sqrt_nonneg _) (Real.sqrt_nonneg _)

theorem gmspGo_nil (b : ℝ) (bi i : Nat) : gmspGo [] b bi i = bi := rfl

theorem gmspGo_cons_nan (rest : List SimF) (b : ℝ) (bi i : Nat) :
    gmspGo (SimF.nan :: rest) b bi i = gmspGo rest b bi (i + 1) := rfl

theorem gmspGo_cons_val_pos {b x : ℝ} (hb : b < x) (rest : List SimF) (bi i : Nat) :
    gmspGo (SimF.val x :: rest) b bi i = gmspGo rest x i (i + 1) := by
  rw [gmspGo, if_pos hb]

theorem gmspGo_cons_val_neg {b x : ℝ} (hb : ¬ b < x) (rest : List SimF) (bi i : Nat) :
    gmspGo (SimF.val x :: rest) b bi i = gmspGo rest b bi (i + 1) := by
  rw [gmspGo, if_neg hb]

theorem gmspGo_spec : ∀ (sims : List SimF) (b : ℝ) (bi i : Nat),
    (∀ s ∈ sims, s ≠ SimF.nan) →
    (gmspGo sims b bi i = bi ∧
      ∀ k (hk : k < sims.length) (x : ℝ), sims.get ⟨k, hk⟩ = SimF.val x → x ≤ b)
    ∨ (∃ k, ∃ hk : k < sims.length, ∃ x : ℝ,
        gmspGo sims b bi i = i + k ∧ sims.get ⟨k, hk⟩ = SimF.val x ∧ b < x
        ∧ (∀ m (hm : m < sims.length) (y : ℝ), sims.get ⟨m, hm⟩ = SimF.val y → y ≤ x)
        ∧ (∀ m (hm : m < sims.length) (y : ℝ), m < k →
            sims.get ⟨m, hm⟩ = SimF.val y → y < x)) := by
  intro sims
  induction sims with
  | nil =>
    intro b bi i _
    left
    refine ⟨gmspGo_nil b bi i, ?_⟩
    intro k hk
    exact absurd hk (by simp)
  | cons s rest ih =>
    intro b bi i hx
    have hs : s ≠ SimF.nan := hx s (List.mem_cons_self s rest)
    cases s with
    | nan => exact absurd rfl hs
    | val x0 =>
      have hxr : ∀ t ∈ rest, t ≠ SimF.nan := fun t ht => hx t (List.mem_cons_of_mem _ ht)
      by_cases hb : b < x0
      · rcases ih x0 i (i + 1) hxr with ⟨he, hall⟩ | ⟨k, hk, x, he, hget, hbx, hmax, hstrict⟩
        · right
          refine ⟨0, by simp, x0, ?_, rfl, hb, ?_, ?_⟩
          · rw [gmspGo_cons_val_pos hb, he]
            omega
          · intro m hm y hy
            cases m with
            | zero =>
              cases hy
              exact le_refl x0
            | succ m' =>
              have hm' : m' < rest.length := by
                simp only [List.length_cons] at hm
                omega
              exact hall m' hm' y hy
          · intro m hm y hmk
            omega
        · right
          refine ⟨k + 1, by
            simp only [List.length_cons]
            omega, x, ?_, ?_, lt_trans hb hbx, ?_, ?_⟩
          · rw [gmspGo_cons_val_pos hb, he]
            omega
          · exact hget
          · intro m hm y hy
            cases m with
            | zero =>
              cases hy
              exact le_of_lt hbx
            | succ m' =>
              have hm' : m' < rest.length := by
                simp only [List.length_cons] at hm
                omega
              exact hmax m' hm' y hy
          · intro m hm y hmk hy
            cases m with
            | zero =>
              cases hy
              exact hbx
            | succ m' =>
              have hm' : m' < rest.length := by
                simp only [List.length_cons] at hm
                omega
              exact hstrict m' hm' y (by omega) hy
      · have hx0b : x0 ≤ b := not_lt.mp hb
        rcases ih b bi (i + 1) hxr with ⟨he, hall⟩ | ⟨k, hk, x, he, hget, hbx, hmax, hstrict⟩
        · left
          refine ⟨?_, ?_⟩
          · rw [gmspGo_cons_val_neg hb, he]
          · intro m hm y hy
            cases m with
            | zero =>
              cases hy
              exact hx0b
            | succ m' =>
              have hm' : m' < rest.length := by
                simp only [List.length_cons] at hm
                omega
              exact hall m' hm' y hy
        · right
          refine ⟨k + 1, by
            simp only [List.length_cons]
            omega, x, ?_, ?_, hbx, ?_, ?_⟩
          · rw [gmspGo_cons_val_neg hb, he]
            omega
          · exact hget
          · intro m hm y hy
            cases m with
            | zero =>
              cases hy
              exact le_of_lt (lt_of_le_of_lt hx0b hbx)
            | succ m' =>
              have hm' : m' < rest.length := by
                simp only [List.length_cons] at hm
                omega
              exact hmax m' hm' y hy
          · intro m hm y hmk hy
            cases m with
            | zero =>
              cases hy
              exact lt_of_le_of_lt hx0b hbx
            | succ m' =>
              have hm' : m' < rest.length := by
                simp only [List.length_cons] at hm
                omega
              exact hstrict m' hm' y (by omega) hy

theorem simsOf_eq (primary_page : Page) (pages : List Page) :
    simsOf primary_page pages = pages.map (fun page =>
      cosine_sim (page_to_vec primary_page (build_vocab (primary_page :: pages)))
        (page_to_vec page (build_vocab (primary_page :: pages)))) := rfl

theorem simsOf_length (primary_page : Page) (pages : List Page) :
    (simsOf primary_page pages).length = pages.length := by
  rw [simsOf_eq, List.length_map]

theorem simsOf_get (primary_page : Page) (pages : List Page) (k : Nat)
    (hk : k < (simsOf primary_page pages).length) (hk2 : k < pages.length) :
    (simsOf primary_page pages).get ⟨k, hk⟩ =
      cosine_sim (page_to_vec primary_page (build_vocab (primary_page :: pages)))
        (page_to_vec (pages.get ⟨k, hk2⟩) (build_vocab (primary_page :: pages))) := by
  simp only [List.get_eq_getElem, simsOf_eq, List.getElem_map]

/-- Claim C1: when every computed similarity is an actual number — which,
with the unguarded `cosine_sim` (see C2), means the reference's and every
candidate's cleaned body is non-empty — `get_most_similar_page` returns a
valid candidate index whose similarity to the reference no candidate
strictly exceeds; every earlier candidate has strictly smaller similarity
(ties are won by the lowest index, since the loop replaces the running best
only on strict improvement over the initial `-1.0` baseline, low enough for
a zero-similarity candidate to win on the first comparison); and when every
candidate has similarity exactly `0.0` the returned index is `0`. -/
theorem C1_most_similar_argmax (primary_page : Page) (pages : List Page)
    (hne : pages ≠ [])
    (hprim : pageTokens primary_page ≠ [])
    (hcand : ∀ p ∈ pages, pageTokens p ≠ []) :
    ∃ hj : get_most_similar_page primary_page pages < (simsOf primary_page pages).length,
      (∀ k (hk : k < (simsOf primary_page pages).length),
        ¬ SimF.lt ((simsOf primary_page pages).get
            ⟨get_most_similar_page primary_page pages, hj⟩)
          ((simsOf primary_page pages).get ⟨k, hk⟩))
      ∧ (∀ k (hk : k < (simsOf primary_page pages).length),
          k < get_most_similar_page primary_page pages →
          SimF.lt ((simsOf primary_page pages).get ⟨k, hk⟩)
            ((simsOf primary_page pages).get
              ⟨get_most_similar_page primary_page pages, hj⟩))
      ∧ ((∀ k (hk : k < (simsOf primary_page pages).length),
            (simsOf primary_page pages).get ⟨k, hk⟩ = SimF.val 0) →
          get_most_similar_page primary_page pages = 0) := by
  have hmp : magSq (page_to_vec primary_page (build_vocab (primary_page :: pages))) ≠ 0 :=
    magSq_page_to_vec_ne_zero (List.mem_cons_self _ _) hprim
  have hmc : ∀ p ∈ pages,
      magSq (page_to_vec p (build_vocab (primary_page :: pages))) ≠ 0 :=
    fun p hp => magSq_page_to_vec_ne_zero (List.mem_cons_of_mem _ hp) (hcand p hp)
  have hsim : ∀ p ∈ pages, ∃ x : ℝ,
      cosine_sim (page_to_vec primary_page (build_vocab (primary_page :: pages)))
        (page_to_vec p (build_vocab (primary_page :: pages))) = SimF.val x ∧ 0 ≤ x :=
    fun p hp => cosine_sim_val_of_ne_zero hmp (hmc p hp)
      (page_to_vec_nonneg _ _) (page_to_vec_nonneg _ _)
  have hx : ∀ s ∈ simsOf primary_page pages, s ≠ SimF.nan := by
    intro s hs
    rw [simsOf_eq] at hs
    rcases List.mem_map.mp hs with ⟨p, hp, rfl⟩
    obtain ⟨x, he, _⟩ := hsim p hp
    rw [he]
    intro hc
    cases hc
  have hget_val : ∀ (k : Nat) (hk : k < (simsOf primary_page pages).length) (x : ℝ),
      (simsOf primary_page pages).get ⟨k, hk⟩ = SimF.val x → 0 ≤ x := by
    intro k hk x hkx
    have hk2 : k < pages.length := by rw [← simsOf_length primary_page pages]; exact hk
    have hmem : pages.get ⟨k, hk2⟩ ∈ pages := List.get_mem pages k hk2
    obtain ⟨x2, he2, hx2⟩ := hsim _ hmem
    have hv : (simsOf primary_page pages).get ⟨k, hk⟩ = SimF.val x2 := by
      rw [simsOf_get primary_page pages k hk hk2]
      exact he2
    rw [hv] at hkx
    cases hkx
    exact hx2
  rcases gmspGo_spec (simsOf primary_page pages) (-1) 0 0 hx with
    ⟨he, hall⟩ | ⟨k, hk, x, he, hget, hbx, hmax, hstrict⟩
  · exfalso
    have h0 : 0 < (simsOf primary_page pages).length := by
      rw [simsOf_length]
      exact List.length_pos.mpr hne
    cases hs0 : (simsOf primary_page pages).get ⟨0, h0⟩ with
    | nan =>
      exact hx _ (List.get_mem _ _ _) hs0
    | val x0 =>
      have h1 := hall 0 h0 x0 hs0
      have h2 := hget_val 0 h0 x0 hs0
      linarith
  · have hgm : get_most_similar_page primary_page pages = k := by
      rw [show get_most_similar_page primary_page pages =
        gmspGo (simsOf primary_page pages) (-1) 0 0 from rfl, he]
      omega
    rw [hgm]
    refine ⟨hk, ?_, ?_, ?_⟩
    · intro m hm
      rw [show (simsOf primary_page pages).get ⟨k, hk⟩ = SimF.val x from hget]
      cases hsm : (simsOf primary_page pages).get ⟨m, hm⟩ with
      | nan =>
        intro hc
        cases hc
      | val y =>
        have := hmax m hm y hsm
        intro hc
        have : x < y := hc
        linarith [hmax m hm y hsm]
    · intro m hm hmk
      rw [show (simsOf primary_page pages).get ⟨k, hk⟩ = SimF.val x from hget]
      cases hsm : (simsOf primary_page pages).get ⟨m, hm⟩ with
      | nan =>
        exact absurd hsm (hx _ (List.get_mem _ _ _))
      | val y =>
        show SimF.lt (SimF.val y) (SimF.val x)
        show y < x
        exact hstrict m hm y hmk hsm
    · intro hz
      have hx0 : x = 0 := by
        have := hz k hk
        rw [hget] at this
        cases this
        rfl
      by_contra hk0
      have hkpos : 0 < k := Nat.pos_of_ne_zero hk0
      have h0lt : 0 < (simsOf primary_page pages).length := by omega
      have := hstrict 0 h0lt 0 hkpos (hz 0 h0lt)
      rw [hx0] at this
      exact absurd this (by norm_num)

/-- Witness for C1 at a concrete input: one reference and one candidate,
both with cleaned body `"apple"`, discharging the non-empty-candidates and
non-empty-cleaned-body hypotheses by evaluation. -/
theorem C1_most_similar_argmax_witness :
    (([{ title := "Q", links := [], content := "apple" }] : List Page) ≠ [])
    ∧ pageTokens { title := "P", links := [], content := "apple" } ≠ []
    ∧ (∀ p ∈ ([{ title := "Q", links := [], content := "apple" }] : List Page),
        pageTokens p ≠ [])
    ∧ (∃ hj : get_most_similar_page { title := "P", links := [], content := "apple" }
          [{ title := "Q", links := [], content := "apple" }] <
        (simsOf { title := "P", links := [], content := "apple" }
          [{ title := "Q", links := [], content := "apple" }]).length,
      (∀ k (hk : k < (simsOf { title := "P", links := [], content := "apple" }
            [{ title := "Q", links := [], content := "apple" }]).length),
        ¬ SimF.lt ((simsOf { title := "P", links := [], content := "apple" }
            [{ title := "Q", links := [], content := "apple" }]).get
            ⟨get_most_similar_page { title := "P", links := [], content := "apple" }
              [{ title := "Q", links := [], content := "apple" }], hj⟩)
          ((simsOf { title := "P", links := [], content := "apple" }
            [{ title := "Q", links := [], content := "apple" }]).get ⟨k, hk⟩))
      ∧ (∀ k (hk : k < (simsOf { title := "P", links := [], content := "apple" }
            [{ title := "Q", links := [], content := "apple" }]).length),
          k < get_most_similar_page { title := "P", links := [], content := "apple" }
            [{ title := "Q", links := [], content := "apple" }] →
          SimF.lt ((simsOf { title := "P", links := [], content := "apple" }
              [{ title := "Q", links := [], content := "apple" }]).get ⟨k, hk⟩)
            ((simsOf { title := "P", links := [], content := "apple" }
              [{ title := "Q", links := [], content := "apple" }]).get
              ⟨get_most_similar_page { title := "P", links := [], content := "apple" }
                [{ title := "Q", links := [], content := "apple" }], hj⟩))
      ∧ ((∀ k (hk : k < (simsOf { title := "P", links := [], content := "apple" }
              [{ title := "Q", links := [], content := "apple" }]).length),
            (simsOf { title := "P", links := [], content := "apple" }
              [{ title := "Q", links := [], content := "apple" }]).get ⟨k, hk⟩ =
              SimF.val 0) →
          get_most_similar_page { title := "P", links := [], content := "apple" }
            [{ title := "Q", links := [], content := "apple" }] = 0)) :=
  ⟨by decide, by decide, by decide,
    C1_most_similar_argmax _ _ (by decide) (by decide) (by decide)⟩
